import Mathlib

/-!
Shallow embedding of the index build planner of `src/src/index_registry.cpp`
(`vg::IndexRegistry`, `vg::IndexFile`, `vg::IndexRecipe`), together with theorems
that settle the claims about it.  Machine integers of the source (`size_t`) are
embedded as `Nat`, except Kahn's in-degree counters which are embedded as `Int`
so that the `== 0` test behaves exactly like the (wrap-around) `size_t` test.
Fallible operations (`std::map::at`, `exit(1)`, thrown exceptions, failed
`assert`) are embedded as an `Except` with a dedicated error constructor each.
The planner's search loop, which always terminates in the source, is given an
explicit fuel argument; running out of fuel is reported as a dedicated error so
that no theorem conditioned on a successful result can be satisfied vacuously
by fuel exhaustion.
-/

namespace IndexReg

/-- One recipe of an index file (source struct `IndexRecipe`, lines 1222-1231):
the ordered list of input artifacts and the opaque executor.  The source stores
pointers to the input `IndexFile` records; the planner reads only their
identifiers and the executor (`IndexRecipe::execute`) reads only their current
filename lists, so the embedding stores the input identifiers and hands the
executor the resolved input filename lists, the output path stem and the output
suffix, in that order. -/
structure IndexRecipe where
  inputs : List String
  exec : List (List String) → String → String → List String

/-- An `IndexFile` record (lines 1179-1220): identifier, filename suffix, the
current list of concrete filenames, whether the user supplied the filenames
directly, and the registered recipes in priority order (index 0 first). -/
structure IndexFile where
  identifier : String
  suffix : String
  filenames : List String
  provided_directly : Bool
  recipes : List IndexRecipe

/-- Fresh record created by `IndexFile::IndexFile` (line 1179): empty filenames,
not provided directly, no recipes. -/
def IndexFile.init (identifier suffix : String) : IndexFile :=
  ⟨identifier, suffix, [], false, []⟩

/-- `IndexFile::is_finished` (line 1183): the filename list is nonempty. -/
def IndexFile.is_finished (f : IndexFile) : Bool :=
  !f.filenames.isEmpty

/-- `IndexFile::provide` (line 1199): store the filenames, whatever they are,
and mark the record as directly provided. -/
def IndexFile.provide (f : IndexFile) (filenames : List String) : IndexFile :=
  { f with filenames := filenames, provided_directly := true }

/-- `IndexFile::add_recipe` (line 1217): append a recipe at the back, i.e. at
the lowest priority so far. -/
def IndexFile.add_recipe (f : IndexFile) (inputs : List String)
    (exec : List (List String) → String → String → List String) : IndexFile :=
  { f with recipes := f.recipes ++ [⟨inputs, exec⟩] }

/-- Error outcomes of the embedded operations.  `fatal` embeds the
`cerr << ...; exit(1)` paths (registration diagnostics and the cycle check),
`outOfRange` embeds the `std::out_of_range` thrown by `registry.at` in
`IndexRegistry::get_index` (line 801), `insufficientInput` embeds
`InsufficientInputException` (lines 1233-1238) with its target and completed
inputs, `assertFailed` embeds a failed `assert` in
`IndexFile::execute_recipe` (lines 1209-1213), and `fuelExhausted` is a model
artifact reported when the embedded search loop runs out of fuel. -/
inductive RegError where
  | fatal (msg : String)
  | outOfRange
  | insufficientInput (target : String) (inputs : List String)
  | assertFailed
  | fuelExhausted
deriving DecidableEq

/-- The registry state (class `IndexRegistry`).  The source keeps the index
files in a `std::map<string, unique_ptr<IndexFile>>`, which iterates its
entries in increasing lexicographic identifier order; the embedding keeps the
records in a list sorted by identifier, which `register_index` maintains.
The field `out_pref` embeds the member `output_prefix` (the name is shortened
in the embedding only). -/
structure IndexRegistry where
  registry : List IndexFile
  registered_suffixes : List String
  out_pref : String
  keep_intermediates : Bool

/-- An empty registry. -/
def IndexRegistry.init : IndexRegistry :=
  ⟨[], [], "index", false⟩

/-- Ordered insertion into the identifier-sorted list embedding the
`std::map` keyed by identifier. -/
def insertSorted (f : IndexFile) : List IndexFile → List IndexFile
  | [] => [f]
  | g :: t =>
    match compare f.identifier g.identifier with
    | Ordering.lt => f :: g :: t
    | _ => g :: insertSorted f t

/-- Lookup of a record by identifier (the read side of `registry.at`). -/
def IndexRegistry.findArt (reg : IndexRegistry) (identifier : String) :
    Option IndexFile :=
  reg.registry.find? (fun f => f.identifier == identifier)

/-- Total lookup used where the source dereferences a pointer that is known to
be valid; for identifiers that are not registered it returns a blank record
(the source would be in undefined-behaviour territory there). -/
def IndexRegistry.getArt (reg : IndexRegistry) (identifier : String) :
    IndexFile :=
  (reg.findArt identifier).getD (IndexFile.init "" "")

/-- Update of the record with the given identifier (in-place mutation through
the `IndexFile*` in the source). -/
def IndexRegistry.updateArt (reg : IndexRegistry) (identifier : String)
    (g : IndexFile → IndexFile) : IndexRegistry :=
  { reg with
    registry := reg.registry.map
      (fun f => if f.identifier == identifier then g f else f) }

/-- The registered identifiers in registry (map) iteration order. -/
def IndexRegistry.ids (reg : IndexRegistry) : List String :=
  reg.registry.map (fun f => f.identifier)

/-- `IndexRegistry::register_index` (lines 749-769): fatal on empty identifier,
empty suffix, duplicate identifier or duplicate suffix, otherwise insert a
fresh record. -/
def IndexRegistry.register_index (reg : IndexRegistry)
    (identifier suffix : String) : Except RegError IndexRegistry :=
  if identifier = "" then .error (.fatal "indexes must have a non-empty identifier")
  else if suffix = "" then .error (.fatal "indexes must have a non-empty suffix")
  else if reg.registry.any (fun f => f.identifier == identifier) then
    .error (.fatal "index registry contains a duplicated identifier")
  else if reg.registered_suffixes.contains suffix then
    .error (.fatal "index registry contains a duplicated suffix")
  else
    .ok { reg with
          registry := insertSorted (IndexFile.init identifier suffix) reg.registry,
          registered_suffixes := reg.registered_suffixes ++ [suffix] }

/-- `IndexRegistry::provide` (lines 776-778): `get_index(identifier)` throws
`std::out_of_range` for an unknown identifier, otherwise the record is marked
provided with the given filenames. -/
def IndexRegistry.provide (reg : IndexRegistry) (identifier : String)
    (filenames : List String) : Except RegError IndexRegistry :=
  match reg.findArt identifier with
  | none => .error .outOfRange
  | some _ => .ok (reg.updateArt identifier (fun f => f.provide filenames))

/-- `IndexRegistry::register_recipe` (lines 790-798): each input identifier is
looked up first (each lookup can throw `std::out_of_range`), then the output
identifier is looked up, then the recipe is appended to the output's list. -/
def IndexRegistry.register_recipe (reg : IndexRegistry) (identifier : String)
    (input_identifiers : List String)
    (exec : List (List String) → String → String → List String) :
    Except RegError IndexRegistry :=
  if input_identifiers.all (fun i => (reg.findArt i).isSome) then
    match reg.findArt identifier with
    | none => .error .outOfRange
    | some _ =>
      .ok (reg.updateArt identifier (fun f => f.add_recipe input_identifiers exec))
  else .error .outOfRange

/-- `IndexRegistry::completed_indexes` (lines 780-788): identifiers of the
finished records, in registry iteration order. -/
def IndexRegistry.completed_indexes (reg : IndexRegistry) : List String :=
  (reg.registry.filter (fun f => f.is_finished)).map (fun f => f.identifier)

/-! ## Dependency ordering (`IndexRegistry::dependency_order`, lines 808-885) -/

/-- Replace the element at an index of a list (no-op when out of range). -/
def updAt (i : Nat) (g : α → α) : List α → List α
  | [] => []
  | a :: t => if i = 0 then g a :: t else a :: updAt (i - 1) g t

/-- Remove consecutive duplicates of a sorted list: the
`unique(adj.begin(), adj.end())` step after sorting (lines 834-837). -/
def dedupSorted : List Nat → List Nat
  | [] => []
  | [a] => [a]
  | a :: b :: t => if a = b then dedupSorted (b :: t) else a :: dedupSorted (b :: t)

/-- Insertion sort of an adjacency list, embedding `sort(adj.begin(), adj.end())`. -/
def insertNat (a : Nat) : List Nat → List Nat
  | [] => [a]
  | b :: t => if a ≤ b then a :: b :: t else b :: insertNat a t

/-- Ascending sort via insertion. -/
def sortNat : List Nat → List Nat
  | [] => []
  | a :: t => insertNat a (sortNat t)

/-- The `graph_idx` unordered map (lines 815-820): position of an identifier in
the label vector; `operator[]` of an unordered map value-initialises missing
keys, so an unknown identifier maps to 0. -/
def graphIdx (labels : List String) (identifier : String) : Nat :=
  (labels.findIdx? (fun s => s == identifier)).getD 0

/-- Build the dependency graph (lines 822-831): for every artifact `i` and every
input of every recipe of `i`, append `i` to the adjacency of the input. -/
def buildGraph (reg : IndexRegistry) (labels : List String) : List (List Nat) :=
  (List.range labels.length).foldl
    (fun adj i =>
      ((reg.getArt (labels.getD i "")).recipes).foldl
        (fun adj recipe =>
          recipe.inputs.foldl
            (fun adj input => updAt (graphIdx labels input) (fun l => l ++ [i]) adj)
            adj)
        adj)
    (List.replicate labels.length [])

/-- In-degrees (lines 840-845), as `Int` so that decrementing past zero can never
reach zero again, exactly like the wrap-around of the `size_t` in the source. -/
def inDegrees (n : Nat) (adj : List (List Nat)) : List Int :=
  adj.foldl (fun deg l => l.foldl (fun deg j => updAt j (fun d => d + 1) deg) deg)
    (List.replicate n 0)

/-- Visiting one successor during Kahn's algorithm (lines 859-864): decrement
its in-degree and push it when the in-degree reaches zero. -/
def kahnVisit (p : List Nat × List Int) (j : Nat) : List Nat × List Int :=
  let deg2 := updAt j (fun d => d - 1) p.2
  if deg2.getD j 0 = 0 then (j :: p.1, deg2) else (p.1, deg2)

/-- One round of Kahn's algorithm (lines 855-865): pop the top of the stack,
emit it, decrement the in-degree of each successor and push those that reach
zero.  The C++ stack is a vector popped at the back; the embedding keeps the
top at the head, so a `push_back` becomes a cons. -/
def kahnLoop (adj : List (List Nat)) :
    Nat → List Nat → List Int → List Nat → List Nat
  | 0, _, _, order => order
  | _ + 1, [], _, order => order
  | fuel + 1, i :: stack, deg, order =>
    let step := (adj.getD i []).foldl kahnVisit (stack, deg)
    kahnLoop adj fuel step.1 step.2 (order ++ [i])

/-- The adjacency lists of the dependency graph after the sort-and-unique
deduplication step (lines 833-837). -/
def depAdj (reg : IndexRegistry) : List (List Nat) :=
  (buildGraph reg reg.ids).map (fun l => dedupSorted (sortNat l))

/-- The in-degree vector of the dependency graph (lines 840-845). -/
def depDeg (reg : IndexRegistry) : List Int :=
  inDegrees reg.ids.length (depAdj reg)

/-- The initial stack of in-degree-zero vertices (lines 847-852), pushed in
ascending index order so that the back — the head of the embedded stack — is
the greatest. -/
def depStack0 (reg : IndexRegistry) : List Nat :=
  ((List.range reg.ids.length).filter (fun i => (depDeg reg).getD i 0 = 0)).reverse

/-- The vertex order emitted by Kahn's algorithm for the registry. -/
def depKahnOrder (reg : IndexRegistry) : List Nat :=
  kahnLoop (depAdj reg) (reg.ids.length + 1) (depStack0 reg) (depDeg reg) []

/-- `IndexRegistry::dependency_order` (lines 808-885): Kahn's algorithm over the
artifact graph; identifiers keep their registry (map) iteration order as graph
labels; a shortfall in the emitted order means the graph is cyclic and is a
fatal error. -/
def IndexRegistry.dependency_order (reg : IndexRegistry) :
    Except RegError (List String) :=
  if (depKahnOrder reg).length ≠ reg.ids.length then
    .error (.fatal "index dependency graph is not a DAG")
  else .ok ((depKahnOrder reg).map (fun i => reg.ids.getD i ""))

/-! ## The planner (`IndexRegistry::make_plan`, lines 887-1103)

The search state of one end product is a pair of
a queue and a plan path.  The queue embeds
`map<size_t, pair<size_t, size_t>, greater<size_t>>`: a list of
`(dependency position, first requester, requester count)` triples kept
strictly decreasing in the position, head first.  The plan path embeds the
`vector<tuple<size_t, size_t, size_t>>` of
`(dependency position, requester, selected recipe index)` records, with the
vector's back at the head of the list. -/

/-- A queue entry: dependency position, lowest-level (first) requester, number
of requesters. -/
abbrev QEntry := Nat × Nat × Nat

/-- A plan path entry: dependency position, requester, current recipe index. -/
abbrev PEntry := Nat × Nat × Nat

/-- The `dep_order_of_identifier` unordered map (lines 898-901): position of an
identifier in the dependency order; `operator[]` value-initialises missing
keys, so an identifier that was never registered maps to position 0. -/
def depOrderOf (order : List String) (identifier : String) : Nat :=
  (order.findIdx? (fun s => s == identifier)).getD 0

/-- The record the planner consults for the artifact at a dependency position:
`get_index(identifier_order[p])`. -/
def artAt (reg : IndexRegistry) (order : List String) (p : Nat) : IndexFile :=
  reg.getArt (order.getD p "")

/-- Insert a fresh entry into the descending queue (`queue[d] = {r, 1}` on a
missing key). -/
def qInsert (e : QEntry) : List QEntry → List QEntry
  | [] => [e]
  | q :: t => if q.1 < e.1 then e :: q :: t else q :: qInsert e t

/-- Enqueue the inputs of a recipe (lines 959-971 and 1050-1062): an input that
is already queued gains a requester, a new input is inserted with the current
artifact as its first requester and one requester. -/
def enqueueInputs (order : List String) (requester : Nat)
    (inputs : List String) (queue : List QEntry) : List QEntry :=
  inputs.foldl
    (fun queue input =>
      let d := depOrderOf order input
      if queue.any (fun e => e.1 = d) then
        queue.map (fun e => if e.1 = d then (e.1, e.2.1, e.2.2 + 1) else e)
      else qInsert (d, requester, 1) queue)
    queue

/-- Remove one requester from each queued input of a recipe, erasing entries
whose count reaches zero (lines 996-1009 and 1021-1034). -/
def decrementInputs (order : List String) (inputs : List String)
    (queue : List QEntry) : List QEntry :=
  inputs.foldl
    (fun queue input =>
      let d := depOrderOf order input
      queue.foldr
        (fun e acc =>
          if e.1 = d then
            if e.2.2 - 1 = 0 then acc else (e.1, e.2.1, e.2.2 - 1) :: acc
          else e :: acc)
        [])
    queue

/-- Apply the backtracking decrement for one plan-path record that is being
abandoned: if its artifact was unfinished and working on a recipe, the recipe's
queued inputs lose a requester (lines 992-1010 and 1017-1035). -/
def releaseEntry (reg : IndexRegistry) (order : List String) (e : PEntry)
    (queue : List QEntry) : List QEntry :=
  let art := artAt reg order e.1
  if !art.is_finished ∧ e.2.2 < art.recipes.length then
    decrementInputs order ((art.recipes.getD e.2.2 ⟨[], fun _ _ _ => []⟩).inputs) queue
  else queue

/-- The inner backtracking loop (lines 990-1013): pop plan-path records, each
releasing its queued recipe inputs, until reaching the record of the requester
(or exhausting the path). -/
def popToRequester (reg : IndexRegistry) (order : List String) (requester : Nat) :
    List QEntry → List PEntry → List QEntry × List PEntry
  | queue, [] => (queue, [])
  | queue, e :: path =>
    if e.1 = requester then (queue, e :: path)
    else popToRequester reg order requester (releaseEntry reg order e queue) path

/-- The outer backtracking loop (lines 980-1038): while the plan path ends in a
record whose recipes are exhausted, unwind to its requester, release the
requester's current recipe inputs and advance the requester to its next
recipe.  The loop always terminates in the source; the embedding carries fuel
and reports `none` if it runs out. -/
def backtrack (reg : IndexRegistry) (order : List String) :
    Nat → List QEntry → List PEntry → Option (List QEntry × List PEntry)
  | 0, _, _ => none
  | _ + 1, queue, [] => some (queue, [])
  | fuel + 1, queue, (p, r, idx) :: path =>
    if idx = (artAt reg order p).recipes.length then
      match popToRequester reg order r queue ((p, r, idx) :: path) with
      | (queue1, []) => some (queue1, [])
      | (queue1, (p2, r2, idx2) :: path2) =>
        let queue2 := releaseEntry reg order (p2, r2, idx2) queue1
        backtrack reg order fuel queue2 ((p2, r2, idx2 + 1) :: path2)
    else some (queue, (p, r, idx) :: path)

/-- The planning loop for one end product (lines 918-1066).  Each iteration
pops the queue entry with the greatest dependency position onto the plan path
with recipe index 0; a finished artifact needs no recipe; an artifact with
recipes enqueues the inputs of its front recipe; anything else triggers
backtracking, after which, if the path survives, the inputs of the new current
recipe of the record at the back are enqueued. -/
def planLoop (reg : IndexRegistry) (order : List String) :
    Nat → List QEntry → List PEntry → Except RegError (List PEntry)
  | 0, _, _ => .error .fuelExhausted
  | _ + 1, [], path => .ok path
  | fuel + 1, (p, r, _) :: queue, path =>
    let art := artAt reg order p
    let path := (p, r, 0) :: path
    if art.is_finished then planLoop reg order fuel queue path
    else if art.recipes.isEmpty = false then
      planLoop reg order fuel
        (enqueueInputs order p ((art.recipes.getD 0 ⟨[], fun _ _ _ => []⟩).inputs) queue)
        path
    else
      match backtrack reg order (fuel + 1) queue path with
      | none => .error .fuelExhausted
      | some (queue1, []) => planLoop reg order fuel queue1 []
      | some (queue1, (p2, r2, idx2) :: path2) =>
        let art2 := artAt reg order p2
        planLoop reg order fuel
          (enqueueInputs order p2
            ((art2.recipes.getD idx2 ⟨[], fun _ _ _ => []⟩).inputs) queue1)
          ((p2, r2, idx2) :: path2)

/-- The search for one end product (lines 911-917): the queue is seeded with
the product's dependency position, requested by the sentinel
`identifier_order.size()` with one requester, and the loop starts with an
empty plan path. -/
def planOneProduct (fuel : Nat) (reg : IndexRegistry) (order : List String)
    (product : String) : Except RegError (List PEntry) :=
  planLoop reg order fuel [(depOrderOf order product, order.length, 1)] []

/-- Record a plan element, embedding insertion into the
`unordered_set<pair<string, size_t>> plan_elements` (set semantics; the
embedding keeps first-insertion order, one of the behaviours the unspecified
set order allows). -/
def insertElem (elems : List (String × Nat)) (e : String × Nat) :
    List (String × Nat) :=
  if elems.contains e then elems else elems ++ [e]

/-- The plan elements contributed by one finished plan path (lines 1081-1084),
walking the path front to back. -/
def pathElems (order : List String) (path : List PEntry)
    (elems : List (String × Nat)) : List (String × Nat) :=
  path.reverse.foldl (fun acc e => insertElem acc (order.getD e.1 "", e.2.2)) elems

/-- Stable insertion by dependency position, embedding the final
`sort` by `dep_order_of_identifier` (lines 1088-1090). -/
def insertByDep (order : List String) (e : String × Nat) :
    List (String × Nat) → List (String × Nat)
  | [] => [e]
  | f :: t =>
    if depOrderOf order e.1 < depOrderOf order f.1 then e :: f :: t
    else f :: insertByDep order e t

/-- Sort the aggregated plan elements by dependency position. -/
def sortByDep (order : List String) : List (String × Nat) → List (String × Nat)
  | [] => []
  | e :: t => insertByDep order e (sortByDep order t)

/-- Process the end products in order (lines 905-1084): resolve each product,
throw `InsufficientInputException` if its plan path came out empty, and union
its elements into the accumulated set. -/
def runProducts (fuel : Nat) (reg : IndexRegistry) (order : List String) :
    List String → List (String × Nat) → Except RegError (List (String × Nat))
  | [], elems => .ok elems
  | product :: products, elems =>
    match planOneProduct fuel reg order product with
    | .error e => .error e
    | .ok path =>
      if path.isEmpty then
        .error (.insufficientInput product reg.completed_indexes)
      else runProducts fuel reg order products (pathElems order path elems)

/-- The aggregated plan before the final filter: dependency order, per-product
resolution, union of the elements, and the sort by dependency position
(lines 887-1090). -/
def make_plan_sorted (fuel : Nat) (reg : IndexRegistry)
    (end_products : List String) : Except RegError (List (String × Nat)) :=
  match reg.dependency_order with
  | .error e => .error e
  | .ok order =>
    match runProducts fuel reg order end_products [] with
    | .error e => .error e
    | .ok elems => .ok (sortByDep order elems)

/-- `IndexRegistry::make_plan` (lines 887-1103): the sorted aggregated plan
with the already-finished artifacts removed (lines 1098-1101). -/
def make_plan (fuel : Nat) (reg : IndexRegistry) (end_products : List String) :
    Except RegError (List (String × Nat)) :=
  match make_plan_sorted fuel reg end_products with
  | .error e => .error e
  | .ok plan => .ok (plan.filter (fun pr => !(reg.getArt pr.1).is_finished))

/-! ## Execution and retention (`IndexRegistry::make_indexes`, lines 691-747) -/

/-- The temp directory resolver (`temp_file::get_dir`), an external collaborator
outside the planner; its value never influences any claim. -/
def temp_dir : String := "tmp"

/-- SHA-1 of an identifier (`sha1sum`), an external collaborator outside the
planner; its value never influences any claim. -/
def sha1sum (s : String) : String := "sha1-" ++ s

/-- The `is_intermediate` helper of `make_indexes` (lines 693-701): an index is
intermediate iff it is neither directly provided nor among the requested
identifiers. -/
def isIntermediate (identifiers : List String) (f : IndexFile) : Bool :=
  !f.provided_directly && !(identifiers.contains f.identifier)

/-- `IndexFile::execute_recipe` (lines 1208-1215): assert the recipe index is
in range and every input finished, then run the executor on the inputs'
current filename lists and store the produced filenames. -/
def IndexRegistry.execute_recipe (reg : IndexRegistry) (identifier : String)
    (recipe_priority : Nat) (pref : String) : Except RegError IndexRegistry :=
  let f := reg.getArt identifier
  if recipe_priority < f.recipes.length then
    let recipe := f.recipes.getD recipe_priority ⟨[], fun _ _ _ => []⟩
    if recipe.inputs.all (fun inp => (reg.getArt inp).is_finished) then
      let fns := recipe.exec
        (recipe.inputs.map (fun inp => (reg.getArt inp).filenames)) pref f.suffix
      .ok (reg.updateArt identifier (fun g => { g with filenames := fns }))
    else .error .assertFailed
  else .error .assertFailed

/-- The execution walk of `make_indexes` (lines 706-723): for each plan step
choose the output stem — the configured output stem for kept artifacts, a
content-addressed temp stem for intermediates — and execute the recipe. -/
def execPlan (identifiers : List String) (reg : IndexRegistry) :
    List (String × Nat) → Except RegError IndexRegistry
  | [] => .ok reg
  | step :: rest =>
    let f := reg.getArt step.1
    let pref :=
      if reg.keep_intermediates || !(isIntermediate identifiers f) then reg.out_pref
      else temp_dir ++ "/" ++ sha1sum f.identifier
    match reg.execute_recipe step.1 step.2 pref with
    | .error e => .error e
    | .ok reg2 => execPlan identifiers reg2 rest

/-- The keep set of the cleanup (lines 729-736): the union, in registry
iteration order, of the filenames of every non-intermediate index. -/
def keepSet (identifiers : List String) (reg : IndexRegistry) : List String :=
  reg.registry.foldl
    (fun acc f => if isIntermediate identifiers f then acc else acc ++ f.filenames)
    []

/-- The files removed by the cleanup (lines 738-745): every filename of every
registered index that is not in the keep set. -/
def deletedFiles (identifiers : List String) (reg : IndexRegistry) : List String :=
  reg.registry.foldl
    (fun acc f => acc ++ f.filenames.filter (fun fn => !(keepSet identifiers reg).contains fn))
    []

/-- `IndexRegistry::make_indexes` (lines 691-747): compute the plan, execute it
step by step, and, unless intermediates are kept, delete every file that only
intermediate indexes list.  The result is the final registry state together
with the list of deleted files. -/
def make_indexes (fuel : Nat) (reg : IndexRegistry) (identifiers : List String) :
    Except RegError (IndexRegistry × List String) :=
  match make_plan fuel reg identifiers with
  | .error e => .error e
  | .ok plan =>
    match execPlan identifiers reg plan with
    | .error e => .error e
    | .ok reg2 =>
      if reg2.keep_intermediates then .ok (reg2, [])
      else .ok (reg2, deletedFiles identifiers reg2)

/-! ## Spec-side producibility and the public-operation state machine -/

/-- Modelled from the spec: "some combination of recipe choices can produce T
from the directly-provided artifacts" (§8, backtracking completeness).  An
artifact is producible iff it is directly provided or some registered recipe
for it has every input producible.  This is a specification-side definition,
used only to compare the planner's verdict with the spec's. -/
inductive Producible (reg : IndexRegistry) : String → Prop where
  | provided (identifier : String) (f : IndexFile) :
      reg.findArt identifier = some f → f.provided_directly = true →
      Producible reg identifier
  | viaRecipe (identifier : String) (f : IndexFile) (r : IndexRecipe) :
      reg.findArt identifier = some f → r ∈ f.recipes →
      (∀ inp ∈ r.inputs, Producible reg inp) → Producible reg identifier

/-- A public operation on the registry (§6 of the spec: registration,
provisioning, execution). -/
inductive RegOp where
  | reg_index (identifier suffix : String)
  | reg_recipe (identifier : String) (inputs : List String)
      (exec : List (List String) → String → String → List String)
  | do_provide (identifier : String) (filenames : List String)
  | do_make (fuel : Nat) (identifiers : List String)

/-- Apply one public operation. -/
def applyOp (reg : IndexRegistry) : RegOp → Except RegError IndexRegistry
  | .reg_index identifier suffix => reg.register_index identifier suffix
  | .reg_recipe identifier inputs exec => reg.register_recipe identifier inputs exec
  | .do_provide identifier filenames => reg.provide identifier filenames
  | .do_make fuel identifiers =>
    match make_indexes fuel reg identifiers with
    | .error e => .error e
    | .ok pr => .ok pr.1

/-- Apply a list of public operations, stopping at the first error. -/
def applyOps (reg : IndexRegistry) : List RegOp → Except RegError IndexRegistry
  | [] => .ok reg
  | op :: ops =>
    match applyOp reg op with
    | .error e => .error e
    | .ok reg2 => applyOps reg2 ops

/-- The registry states reachable through the public operations from the empty
registry. -/
inductive Reachable : IndexRegistry → Prop where
  | init : Reachable IndexRegistry.init
  | step {reg reg2 : IndexRegistry} {op : RegOp} :
      Reachable reg → applyOp reg op = .ok reg2 → Reachable reg2

/-- Reachability through operation sequences in which every `provide` passes a
nonempty filename list. -/
inductive ReachableNE : IndexRegistry → Prop where
  | init : ReachableNE IndexRegistry.init
  | step {reg reg2 : IndexRegistry} {op : RegOp} :
      ReachableNE reg → (∀ identifier, op ≠ .do_provide identifier []) →
      applyOp reg op = .ok reg2 → ReachableNE reg2

/-! ## Concrete registries used by counterexamples and witnesses -/

/-- A generic executor producing the conventional single output filename. -/
def mkFile : List (List String) → String → String → List String :=
  fun _ pref suf => [pref ++ "." ++ suf]

/-- Build a registry from operations, falling back to the empty registry on an
error (never hit by the concrete builds below). -/
def buildReg (ops : List RegOp) : IndexRegistry :=
  (applyOps IndexRegistry.init ops).toOption.getD IndexRegistry.init

/-- Operations building `regBug`. -/
def regBugOps : List RegOp :=
  [ .reg_index "A" "a", .reg_index "B" "b", .reg_index "P" "p",
    .reg_index "T" "t", .reg_index "X" "x",
    .reg_recipe "A" ["X"] mkFile, .reg_recipe "A" ["P"] mkFile,
    .reg_recipe "B" ["X"] mkFile,
    .reg_recipe "T" ["A", "B"] mkFile,
    .do_provide "P" ["P.file"] ]

/-- The registry refuting backtracking completeness and plan validity:
target `T` has the single recipe `{A, B}`; `A` has recipes `{X}` then `{P}`;
`B` has the single recipe `{X}`; `P` is provided; `X` cannot be obtained. -/
def regBug : IndexRegistry :=
  buildReg regBugOps

/-- Operations building `regProvidedTarget`. -/
def regProvidedTargetOps : List RegOp :=
  [ .reg_index "P" "p", .reg_index "T" "t",
    .reg_recipe "T" ["P"] mkFile,
    .do_provide "P" ["P.file"], .do_provide "T" ["T.file"] ]

/-- A registry in which the target `T` is itself directly provided while its
recipe 0 input `P` is provided as well. -/
def regProvidedTarget : IndexRegistry :=
  buildReg regProvidedTargetOps

/-- Operations building `regEmptyProvide`. -/
def regEmptyProvideOps : List RegOp :=
  [ .reg_index "A" "a", .reg_index "P" "p",
    .reg_recipe "A" ["P"] mkFile,
    .do_provide "P" ["P.file"], .do_provide "A" [] ]

/-- A registry in which `A` was provided with an empty filename list and also
has a recipe from the provided `P`. -/
def regEmptyProvide : IndexRegistry :=
  buildReg regEmptyProvideOps

/-- Operations building `regChain`. -/
def regChainOps : List RegOp :=
  [ .reg_index "A" "a", .reg_index "B" "b", .reg_index "C" "c",
    .reg_recipe "B" ["A"] mkFile, .reg_recipe "C" ["B"] mkFile,
    .do_provide "A" ["A.file"] ]

/-- A three-stage chain `A → B → C` with `A` provided, used to exercise the
cleanup: `B` is intermediate when only `C` is requested. -/
def regChain : IndexRegistry :=
  buildReg regChainOps

/-- Operations building `regOne`. -/
def regOneOps : List RegOp :=
  [ .reg_index "A" "a", .do_provide "A" ["A.file"] ]

/-- A registry with a single provided artifact. -/
def regOne : IndexRegistry :=
  buildReg regOneOps

/-- A two-artifact cycle: `A` is made from `B` and `B` from `A`. -/
def regCycle : IndexRegistry :=
  buildReg
    [ .reg_index "A" "a", .reg_index "B" "b",
      .reg_recipe "A" ["B"] mkFile, .reg_recipe "B" ["A"] mkFile ]

/-! ## General helper lemmas -/

/-- Successful operation sequences preserve reachability. -/
theorem reachable_of_applyOps {reg reg2 : IndexRegistry} (ops : List RegOp)
    (h0 : Reachable reg) (h : applyOps reg ops = .ok reg2) : Reachable reg2 := by
  induction ops generalizing reg with
  | nil => cases h; exact h0
  | cons op ops ih =>
    revert h
    unfold applyOps
    cases hop : applyOp reg op with
    | error e => intro h; cases h
    | ok reg3 => exact fun h => ih (Reachable.step h0 hop) h

/-- Successful operation sequences without empty `provide` calls preserve the
restricted reachability. -/
theorem reachableNE_of_applyOps {reg reg2 : IndexRegistry} (ops : List RegOp)
    (hne : ∀ op ∈ ops, ∀ identifier, op ≠ .do_provide identifier [])
    (h0 : ReachableNE reg) (h : applyOps reg ops = .ok reg2) : ReachableNE reg2 := by
  induction ops generalizing reg with
  | nil => cases h; exact h0
  | cons op ops ih =>
    revert h
    unfold applyOps
    cases hop : applyOp reg op with
    | error e => intro h; cases h
    | ok reg3 =>
      exact fun h => ih (fun o ho => hne o (List.mem_cons_of_mem op ho))
        (ReachableNE.step h0 (hne op (List.mem_cons_self op ops)) hop) h

/-- Nothing in `regBug` can produce `X`: it is unprovided and has no recipes. -/
theorem regBug_X_not_producible : ¬ Producible regBug "X" := by
  intro h
  cases h with
  | provided identifier f hf hp =>
    rw [show regBug.findArt "X" = some ⟨"X", "x", [], false, []⟩ from rfl] at hf
    cases hf
    exact Bool.noConfusion hp
  | viaRecipe identifier f r hf hr hall =>
    rw [show regBug.findArt "X" = some ⟨"X", "x", [], false, []⟩ from rfl] at hf
    cases hf
    exact absurd hr (List.not_mem_nil r)

/-- Nothing in `regBug` can produce `B`: its only recipe needs `X`. -/
theorem regBug_B_not_producible : ¬ Producible regBug "B" := by
  intro h
  cases h with
  | provided identifier f hf hp =>
    rw [show regBug.findArt "B" = some ⟨"B", "b", [], false, [⟨["X"], mkFile⟩]⟩ from rfl] at hf
    cases hf
    exact Bool.noConfusion hp
  | viaRecipe identifier f r hf hr hall =>
    rw [show regBug.findArt "B" = some ⟨"B", "b", [], false, [⟨["X"], mkFile⟩]⟩ from rfl] at hf
    cases hf
    rw [List.mem_singleton] at hr
    subst hr
    exact regBug_X_not_producible (hall "X" (List.mem_singleton_self "X"))

/-- Nothing in `regBug` can produce `T`: its only recipe needs `B`. -/
theorem regBug_T_not_producible : ¬ Producible regBug "T" := by
  intro h
  cases h with
  | provided identifier f hf hp =>
    rw [show regBug.findArt "T" = some ⟨"T", "t", [], false, [⟨["A", "B"], mkFile⟩]⟩
        from rfl] at hf
    cases hf
    exact Bool.noConfusion hp
  | viaRecipe identifier f r hf hr hall =>
    rw [show regBug.findArt "T" = some ⟨"T", "t", [], false, [⟨["A", "B"], mkFile⟩]⟩
        from rfl] at hf
    cases hf
    rw [List.mem_singleton] at hr
    subst hr
    exact regBug_B_not_producible (hall "B" (by decide))

/-! ## Claim theorems -/

/-- C1: backtracking completeness fails on the code.  In `regBug` no
combination of recipe choices produces `T` from the directly-provided
artifacts (`T` needs `B`, whose only recipe needs the unobtainable `X`), so by
the claim `make_plan` would have to raise `InsufficientInput`; instead the
backtracking loop, while unwinding from `X` to its first requester `A`,
silently discards the pending sibling `B`, and `make_plan` returns the plan
`[(A, 1), (T, 0)]`. -/
theorem C1_completeness_fails :
    make_plan 100 regBug ["T"] = .ok [("A", 1), ("T", 0)] ∧
    ¬ Producible regBug "T" :=
  ⟨rfl, regBug_T_not_producible⟩

/-- C3: executing the plan that `make_plan` returns for `regBug` runs recipe 0
of `T` while its input `B` is not materialised, so the `assert` on finished
inputs in `execute_recipe` fails. -/
theorem C3_execute_recipe_assert_fails :
    make_indexes 100 regBug ["T"] = .error .assertFailed ∧
    "B" ∈ ((regBug.getArt "T").recipes.getD 0 ⟨[], fun _ _ _ => []⟩).inputs ∧
    (regBug.getArt "B").is_finished = false :=
  ⟨rfl, by decide, rfl⟩

/-- C4: the plan `make_plan` returns for `regBug` contains `(T, 0)`, whose
recipe input `B` is a dependency-order predecessor of `T`, yet `B` neither
appears in the plan nor is directly provided. -/
theorem C4_predecessor_missing_from_plan :
    make_plan 100 regBug ["T"] = .ok [("A", 1), ("T", 0)] ∧
    "B" ∈ ((regBug.getArt "T").recipes.getD 0 ⟨[], fun _ _ _ => []⟩).inputs ∧
    (regBug.getArt "B").provided_directly = false ∧
    (∀ pr ∈ [(("A" : String), (1 : Nat)), ("T", 0)], pr.1 ≠ "B") :=
  ⟨rfl, by decide, rfl, by decide⟩

/-- C2 counterexample: in `regProvidedTarget` every input of recipe 0 of the
target `T` is finished — the recipe is satisfiable from the current inputs —
yet the returned plan is empty and does not contain `(T, 0)`, because `T`
itself is already finished and is filtered out. -/
theorem C2_provided_target_has_no_plan_entry :
    (∀ inp ∈ ((regProvidedTarget.getArt "T").recipes.getD 0 ⟨[], fun _ _ _ => []⟩).inputs,
      (regProvidedTarget.getArt inp).is_finished = true) ∧
    (regProvidedTarget.getArt "T").recipes.length = 1 ∧
    make_plan 100 regProvidedTarget ["T"] = .ok [] :=
  ⟨by decide, rfl, rfl⟩

/-- C7 counterexample: in `regEmptyProvide` the artifact `A` is directly
provided (with an empty filename list), yet the plan returned for target `A`
retains it: the final filter removes finished artifacts, not provided ones. -/
theorem C7_provided_artifact_not_filtered :
    (regEmptyProvide.getArt "A").provided_directly = true ∧
    make_plan 100 regEmptyProvide ["A"] = .ok [("A", 0)] :=
  ⟨rfl, rfl⟩

/-- C8 counterexample: `regEmptyProvide` is reachable through the public
operations, and after `provide("A", {})` the artifact `A` has
`provided_directly` set but is not finished. -/
theorem C8_empty_provide_breaks_invariant :
    Reachable regEmptyProvide ∧
    (regEmptyProvide.getArt "A").provided_directly = true ∧
    (regEmptyProvide.getArt "A").is_finished = false :=
  ⟨reachable_of_applyOps regEmptyProvideOps Reachable.init rfl, rfl, rfl⟩

/-- C10: looking up an identifier that was never registered makes `provide`
and `register_recipe` fail with the out-of-range error of `map::at` (embedded
as `RegError.outOfRange`), not with a fatal configuration diagnostic. -/
theorem C10_unknown_identifier_raises_out_of_range (reg : IndexRegistry)
    (identifier : String) (h : reg.findArt identifier = none) :
    (∀ filenames, reg.provide identifier filenames = .error .outOfRange) ∧
    (∀ inputs exec, reg.register_recipe identifier inputs exec = .error .outOfRange) ∧
    (∀ out inputs exec, identifier ∈ inputs →
      reg.register_recipe out inputs exec = .error .outOfRange) := by
  refine ⟨fun filenames => ?_, fun inputs exec => ?_, fun out inputs exec hmem => ?_⟩
  · unfold IndexRegistry.provide
    rw [h]
  · unfold IndexRegistry.register_recipe
    split
    · rw [h]
    · rfl
  · have hall : ¬ (inputs.all (fun i => (reg.findArt i).isSome) = true) := by
      intro hall
      have h2 := List.all_eq_true.mp hall identifier hmem
      rw [h] at h2
      exact Bool.noConfusion h2
    unfold IndexRegistry.register_recipe
    rw [if_neg hall]

/-- Witness for C10 at a concrete registry with an unknown identifier `Z`. -/
theorem C10_witness :
    regOne.provide "Z" ["f"] = .error .outOfRange ∧
    regOne.register_recipe "Z" ["A"] mkFile = .error .outOfRange ∧
    regOne.register_recipe "A" ["Z"] mkFile = .error .outOfRange := by
  have h := C10_unknown_identifier_raises_out_of_range regOne "Z" rfl
  exact ⟨h.1 ["f"], h.2.1 ["A"] mkFile, h.2.2 "A" ["Z"] mkFile (List.mem_singleton_self "Z")⟩

/-! ## Bounds on the dependency order -/

/-- Elements produced by `updAt` satisfy a predicate that the originals satisfy
and the update preserves. -/
theorem updAt_forall {P : α → Prop} {g : α → α} (hg : ∀ a, P a → P (g a)) :
    ∀ (k : Nat) (l : List α), (∀ a ∈ l, P a) → ∀ a ∈ updAt k g l, P a := by
  intro k l
  induction l generalizing k with
  | nil => intro _ a ha; cases ha
  | cons b t ih =>
    intro hl a ha
    rw [updAt] at ha
    by_cases hk : k = 0
    · rw [if_pos hk] at ha
      rcases List.mem_cons.mp ha with h1 | h1
      · exact h1 ▸ hg b (hl b (List.mem_cons_self b t))
      · exact hl a (List.mem_cons_of_mem b h1)
    · rw [if_neg hk] at ha
      rcases List.mem_cons.mp ha with h1 | h1
      · exact h1 ▸ hl b (List.mem_cons_self b t)
      · exact ih (k - 1) (fun a ha => hl a (List.mem_cons_of_mem b ha)) a h1

/-- Every vertex stored in the built dependency graph is a valid label index. -/
theorem buildGraph_mem_lt (reg : IndexRegistry) (labels : List String) :
    ∀ i j, j ∈ (buildGraph reg labels).getD i [] → j < labels.length := by
  have main : ∀ l ∈ buildGraph reg labels, ∀ j ∈ l, j < labels.length := by
    unfold buildGraph
    refine List.foldlRecOn
      (motive := fun adj => ∀ l ∈ adj, ∀ j ∈ l, j < labels.length) _ _ _ ?_ ?_
    · intro l hl
      rw [List.eq_of_mem_replicate hl]
      intro j hj
      cases hj
    · intro adj hadj i hi
      refine List.foldlRecOn
        (motive := fun adj => ∀ l ∈ adj, ∀ j ∈ l, j < labels.length) _ _ _ hadj ?_
      intro adj2 hadj2 recipe _
      refine List.foldlRecOn
        (motive := fun adj => ∀ l ∈ adj, ∀ j ∈ l, j < labels.length) _ _ _ hadj2 ?_
      intro adj3 hadj3 input _
      refine updAt_forall ?_ _ _ hadj3
      intro l hl j hj
      rcases List.mem_append.mp hj with h1 | h1
      · exact hl j h1
      · rw [List.mem_singleton] at h1
        subst h1
        exact List.mem_range.mp hi
  intro i j hj
  by_cases hi : i < (buildGraph reg labels).length
  · rw [List.getD_eq_getElem _ _ hi] at hj
    exact main _ (List.getElem_mem hi) j hj
  · rw [List.getD_eq_default _ _ (Nat.le_of_not_lt hi)] at hj
    cases hj

/-- Membership in `insertNat`. -/
theorem mem_insertNat {a b : Nat} : ∀ l : List Nat, b ∈ insertNat a l ↔ b = a ∨ b ∈ l := by
  intro l
  induction l with
  | nil => simp [insertNat]
  | cons c t ih =>
    rw [insertNat]
    by_cases h : a ≤ c
    · rw [if_pos h]
      simp [List.mem_cons]
    · rw [if_neg h]
      simp only [List.mem_cons, ih]
      tauto

/-- Membership is preserved by the sort of an adjacency list. -/
theorem mem_sortNat {b : Nat} : ∀ l : List Nat, b ∈ sortNat l ↔ b ∈ l := by
  intro l
  induction l with
  | nil => simp [sortNat]
  | cons c t ih =>
    rw [sortNat, mem_insertNat, ih, List.mem_cons]

/-- Membership is preserved by removing consecutive duplicates. -/
theorem mem_dedupSorted {b : Nat} : ∀ l : List Nat, b ∈ dedupSorted l ↔ b ∈ l := by
  intro l
  induction l with
  | nil => simp [dedupSorted]
  | cons a t ih =>
    match t with
    | [] => simp [dedupSorted]
    | c :: t2 =>
      rw [dedupSorted]
      by_cases hac : a = c
      · rw [if_pos hac, ih]
        subst hac
        simp [List.mem_cons]
      · rw [if_neg hac, List.mem_cons, ih, List.mem_cons]
        simp [List.mem_cons]

/-- Every index emitted by Kahn's loop is within bounds, provided the stack is
and every adjacency entry is. -/
theorem kahnLoop_lt {n : Nat} (adj : List (List Nat))
    (hadj : ∀ i j, j ∈ adj.getD i [] → j < n) :
    ∀ fuel stack deg order, (∀ i ∈ stack, i < n) → (∀ i ∈ order, i < n) →
      ∀ i ∈ kahnLoop adj fuel stack deg order, i < n := by
  intro fuel
  induction fuel with
  | zero => intro stack deg order hs ho i hi; exact ho i hi
  | succ fuel ih =>
    intro stack deg order hs ho i hi
    match stack with
    | [] => exact ho i hi
    | k :: stack =>
      rw [kahnLoop] at hi
      refine ih _ _ _ ?_ ?_ i hi
      · refine List.foldlRecOn (motive := fun p : List Nat × List Int => ∀ i ∈ p.1, i < n)
          _ _ _ ?_ ?_
        · exact fun i hi2 => hs i (List.mem_cons_of_mem k hi2)
        · intro p hp j hj
          unfold kahnVisit
          dsimp only
          split
          · intro i hi2
            rcases List.mem_cons.mp hi2 with h1 | h1
            · exact h1 ▸ hadj k j hj
            · exact hp i h1
          · exact hp
      · intro i hi2
        rcases List.mem_append.mp hi2 with h1 | h1
        · exact ho i h1
        · rw [List.mem_singleton] at h1
          exact h1 ▸ hs k (List.mem_cons_self k stack)

/-- The deduplicated sorted adjacency used by `dependency_order` keeps every
vertex within bounds. -/
theorem depAdj_mem_lt (reg : IndexRegistry) (labels : List String) :
    ∀ i j, j ∈ ((buildGraph reg labels).map (fun l => dedupSorted (sortNat l))).getD i [] →
      j < labels.length := by
  intro i j hj
  by_cases hi : i < ((buildGraph reg labels).map (fun l => dedupSorted (sortNat l))).length
  · rw [List.getD_eq_getElem _ _ hi, List.getElem_map] at hj
    rw [mem_dedupSorted, mem_sortNat] at hj
    have hi2 : i < (buildGraph reg labels).length := by simpa using hi
    refine buildGraph_mem_lt reg labels i j ?_
    rw [List.getD_eq_getElem _ _ hi2]
    exact hj
  · rw [List.getD_eq_default _ _ (Nat.le_of_not_lt hi)] at hj
    cases hj

/-- Every identifier in a successfully computed dependency order is a
registered identifier. -/
theorem dependency_order_mem {reg : IndexRegistry} {order : List String}
    (h : reg.dependency_order = .ok order) : ∀ s ∈ order, s ∈ reg.ids := by
  revert h
  unfold IndexRegistry.dependency_order
  intro h
  split at h
  · cases h
  · cases h
    intro s hs
    rcases List.mem_map.mp hs with ⟨i, hi, hmap⟩
    have hlt : i < reg.ids.length := by
      refine kahnLoop_lt _ (depAdj_mem_lt reg reg.ids) _ _ _ _ ?_ ?_ i hi
      · intro a ha
        exact List.mem_range.mp (List.mem_filter.mp (List.mem_reverse.mp ha)).1
      · intro a ha
        cases ha
    rw [← hmap]
    rw [List.getD_eq_getElem _ _ hlt]
    exact List.getElem_mem hlt

/-! ## The planner treats an unknown target as dependency position 0 -/

/-- The planning loop can only fail by running out of fuel. -/
theorem planLoop_error (reg : IndexRegistry) (order : List String) :
    ∀ fuel queue path e, planLoop reg order fuel queue path = .error e →
      e = .fuelExhausted := by
  intro fuel
  induction fuel with
  | zero =>
    intro queue path e h
    cases h
    rfl
  | succ fuel ih =>
    intro queue path e h
    match queue with
    | [] => cases h
    | (p, r, c) :: qrest =>
      simp only [planLoop] at h
      split at h
      · exact ih _ _ _ h
      · split at h
        · exact ih _ _ _ h
        · split at h
          · cases h
            rfl
          · exact ih _ _ _ h
          · exact ih _ _ _ h

/-- An identifier that does not occur in the order is mapped to position 0 by
the `operator[]` of `dep_order_of_identifier`. -/
theorem depOrderOf_not_mem {order : List String} {u : String} (h : u ∉ order) :
    depOrderOf order u = 0 := by
  unfold depOrderOf
  rw [List.findIdx?_eq_none_iff.mpr ?_]
  · rfl
  · intro x hx
    rw [beq_eq_false_iff_ne]
    intro he
    subst he
    exact h hx

/-- The artifact at position 0 of the dependency order is mapped back to
position 0. -/
theorem depOrderOf_head (b : String) (t : List String) :
    depOrderOf (b :: t) ((b :: t).getD 0 "") = 0 := by
  unfold depOrderOf
  simp [List.findIdx?_cons]

/-- Replace the target recorded in an insufficient-input error, leaving every
other error unchanged. -/
def retarget (product : String) : RegError → RegError
  | .insufficientInput _ inputs => .insufficientInput product inputs
  | .fatal msg => .fatal msg
  | .outOfRange => .outOfRange
  | .assertFailed => .assertFailed
  | .fuelExhausted => .fuelExhausted

/-- C9: planning a target identifier that was never registered proceeds
exactly as if the artifact at position 0 of the dependency order had been
requested: the same plan is returned, or the same error is raised, except that
an insufficient-input error carries the requested name. -/
theorem C9_unknown_target_is_position_zero (fuel : Nat) (reg : IndexRegistry)
    (u : String) (order : List String)
    (hdep : reg.dependency_order = .ok order)
    (hu : u ∉ reg.ids) (hne : order ≠ []) :
    depOrderOf order u = 0 ∧
    make_plan fuel reg [u] =
      Except.mapError (retarget u) (make_plan fuel reg [order.getD 0 ""]) := by
  have h0 : depOrderOf order u = 0 :=
    depOrderOf_not_mem (fun hmem => hu (dependency_order_mem hdep u hmem))
  refine ⟨h0, ?_⟩
  match order, hne with
  | b :: t, _ =>
    have h1 : depOrderOf (b :: t) ((b :: t).getD 0 "") = 0 := depOrderOf_head b t
    simp only [make_plan, make_plan_sorted, hdep, runProducts, planOneProduct, h0, h1]
    cases hres : planLoop reg (b :: t) fuel [(0, (b :: t).length, 1)] [] with
    | error e =>
      have he := planLoop_error reg (b :: t) fuel _ _ e hres
      subst he
      simp [Except.mapError, retarget]
    | ok path =>
      by_cases hp : path.isEmpty
      · simp [hp, Except.mapError, retarget]
      · simp [hp, Except.mapError, retarget]

/-- Witness for C9: the unknown target `Z` on `regOne` is planned exactly like
the position-0 artifact `A`. -/
theorem C9_witness :
    depOrderOf ["A"] "Z" = 0 ∧
    make_plan 100 regOne ["Z"] =
      Except.mapError (retarget "Z") (make_plan 100 regOne [(["A"] : List String).getD 0 ""]) :=
  C9_unknown_target_is_position_zero 100 regOne "Z" ["A"] rfl (by decide) (by decide)

/-! ## Cleanup: the deleted set -/

/-- Membership in the keep-set fold. -/
theorem mem_keepSet_fold (ids : List String) (file : String) :
    ∀ (l : List IndexFile) (acc : List String),
      file ∈ l.foldl
        (fun acc f => if isIntermediate ids f then acc else acc ++ f.filenames) acc ↔
      file ∈ acc ∨ ∃ f ∈ l, isIntermediate ids f = false ∧ file ∈ f.filenames := by
  intro l
  induction l with
  | nil => simp
  | cons f t ih =>
    intro acc
    rw [List.foldl_cons]
    by_cases hf : isIntermediate ids f = true
    · rw [if_pos hf, ih]
      constructor
      · rintro (h | ⟨g, hg, hgi, hgf⟩)
        · exact Or.inl h
        · exact Or.inr ⟨g, List.mem_cons_of_mem f hg, hgi, hgf⟩
      · rintro (h | ⟨g, hg, hgi, hgf⟩)
        · exact Or.inl h
        · rcases List.mem_cons.mp hg with h1 | h1
          · subst h1
            rw [hf] at hgi
            cases hgi
          · exact Or.inr ⟨g, h1, hgi, hgf⟩
    · rw [if_neg hf, ih]
      rw [Bool.not_eq_true] at hf
      constructor
      · rintro (h | ⟨g, hg, hgi, hgf⟩)
        · rcases List.mem_append.mp h with h1 | h1
          · exact Or.inl h1
          · exact Or.inr ⟨f, List.mem_cons_self f t, hf, h1⟩
        · exact Or.inr ⟨g, List.mem_cons_of_mem f hg, hgi, hgf⟩
      · rintro (h | ⟨g, hg, hgi, hgf⟩)
        · exact Or.inl (List.mem_append.mpr (Or.inl h))
        · rcases List.mem_cons.mp hg with h1 | h1
          · subst h1
            exact Or.inl (List.mem_append.mpr (Or.inr hgf))
          · exact Or.inr ⟨g, h1, hgi, hgf⟩

/-- A file is in the keep set iff some non-intermediate index lists it. -/
theorem mem_keepSet {ids : List String} {reg : IndexRegistry} {file : String} :
    file ∈ keepSet ids reg ↔
      ∃ f ∈ reg.registry, isIntermediate ids f = false ∧ file ∈ f.filenames := by
  unfold keepSet
  rw [mem_keepSet_fold]
  simp

/-- Membership in the deletion fold. -/
theorem mem_deleted_fold (keep : List String) (file : String) :
    ∀ (l : List IndexFile) (acc : List String),
      file ∈ l.foldl
        (fun acc f => acc ++ f.filenames.filter (fun fn => !keep.contains fn)) acc ↔
      file ∈ acc ∨ ∃ f ∈ l, file ∈ f.filenames ∧ file ∉ keep := by
  intro l
  induction l with
  | nil => simp
  | cons f t ih =>
    intro acc
    rw [List.foldl_cons, ih]
    constructor
    · rintro (h | ⟨g, hg, hgf, hgk⟩)
      · rcases List.mem_append.mp h with h1 | h1
        · exact Or.inl h1
        · rcases List.mem_filter.mp h1 with ⟨h2, h3⟩
          refine Or.inr ⟨f, List.mem_cons_self f t, h2, ?_⟩
          intro hk
          rw [Bool.not_eq_true'] at h3
          rw [← List.elem_iff] at hk
          rw [List.contains] at h3
          rw [h3] at hk
          cases hk
      · exact Or.inr ⟨g, List.mem_cons_of_mem f hg, hgf, hgk⟩
    · rintro (h | ⟨g, hg, hgf, hgk⟩)
      · exact Or.inl (List.mem_append.mpr (Or.inl h))
      · rcases List.mem_cons.mp hg with h1 | h1
        · subst h1
          refine Or.inl (List.mem_append.mpr (Or.inr ?_))
          refine List.mem_filter.mpr ⟨hgf, ?_⟩
          rw [Bool.not_eq_true']
          rw [← Bool.not_eq_true]
          intro hc
          exact hgk (List.elem_iff.mp hc)
        · exact Or.inr ⟨g, h1, hgf, hgk⟩

/-- A file is deleted by the cleanup fold iff some index lists it and it is not
in the keep set. -/
theorem mem_deletedFiles {ids : List String} {reg : IndexRegistry} {file : String} :
    file ∈ deletedFiles ids reg ↔
      ∃ f ∈ reg.registry, file ∈ f.filenames ∧ file ∉ keepSet ids reg := by
  unfold deletedFiles
  rw [mem_deleted_fold]
  simp

/-- Executing a recipe only rewrites the filename list of its output artifact;
every other field and the registry bookkeeping are unchanged. -/
theorem execute_recipe_ok {reg reg2 : IndexRegistry} {identifier pref : String}
    {k : Nat} (h : reg.execute_recipe identifier k pref = .ok reg2) :
    ∃ fns, reg2 = reg.updateArt identifier (fun g => { g with filenames := fns }) := by
  simp only [IndexRegistry.execute_recipe] at h
  split at h
  · split at h
    · cases h
      exact ⟨_, rfl⟩
    · cases h
  · cases h

/-- The execution walk never changes the retention flag. -/
theorem execPlan_keep {ids : List String} :
    ∀ (plan : List (String × Nat)) (reg reg2 : IndexRegistry),
      execPlan ids reg plan = .ok reg2 →
      reg2.keep_intermediates = reg.keep_intermediates := by
  intro plan
  induction plan with
  | nil =>
    intro reg reg2 h
    cases h
    rfl
  | cons step rest ih =>
    intro reg reg2 h
    simp only [execPlan] at h
    split at h
    · cases h
    · rename_i reg3 heq
      rw [ih _ _ h]
      rcases execute_recipe_ok heq with ⟨fns, rfl⟩
      rfl

/-- C6: with `keep_intermediates` false, `make_indexes` deletes exactly the
files that are listed on some intermediate artifact and not in the keep set —
the union of the filenames of the non-intermediate artifacts — of the final
state; in particular no file listed on any non-intermediate artifact is
deleted, even when an aliasing recipe shares the filename. -/
theorem C6_cleanup_deletes_exactly (fuel : Nat) (reg : IndexRegistry)
    (identifiers : List String) (reg2 : IndexRegistry) (deleted : List String)
    (hkeep : reg.keep_intermediates = false)
    (h : make_indexes fuel reg identifiers = .ok (reg2, deleted)) :
    ∀ file, file ∈ deleted ↔
      ((∃ f ∈ reg2.registry, isIntermediate identifiers f = true ∧ file ∈ f.filenames) ∧
       (∀ f ∈ reg2.registry, isIntermediate identifiers f = false → file ∉ f.filenames)) := by
  have hdel : deleted = deletedFiles identifiers reg2 := by
    simp only [make_indexes] at h
    split at h
    · cases h
    · split at h
      · cases h
      · rename_i reg3 hexec
        have hkeep3 : reg3.keep_intermediates = false := by
          rw [execPlan_keep _ reg reg3 hexec, hkeep]
        rw [hkeep3] at h
        simp only [Bool.false_eq_true, if_false] at h
        cases h
        rfl
  subst hdel
  intro file
  rw [mem_deletedFiles]
  constructor
  · rintro ⟨f, hf, hfile, hnotkeep⟩
    have hint : isIntermediate identifiers f = true := by
      by_contra hc
      rw [Bool.not_eq_true] at hc
      exact hnotkeep (mem_keepSet.mpr ⟨f, hf, hc, hfile⟩)
    refine ⟨⟨f, hf, hint, hfile⟩, ?_⟩
    intro g hg hgint hgfile
    exact hnotkeep (mem_keepSet.mpr ⟨g, hg, hgint, hgfile⟩)
  · rintro ⟨⟨f, hf, hint, hfile⟩, hnone⟩
    refine ⟨f, hf, hfile, ?_⟩
    intro hk
    rcases mem_keepSet.mp hk with ⟨g, hg, hgint, hgfile⟩
    exact hnone g hg hgint hgfile

/-! ## The final filter of the plan -/

/-- Every entry of a returned plan is unfinished. -/
theorem make_plan_not_finished {fuel : Nat} {reg : IndexRegistry}
    {end_products : List String} {plan : List (String × Nat)}
    (hp : make_plan fuel reg end_products = .ok plan) :
    ∀ pr ∈ plan, (reg.getArt pr.1).is_finished = false := by
  simp only [make_plan] at hp
  split at hp
  · cases hp
  · cases hp
    intro pr hpr
    have h2 := (List.mem_filter.mp hpr).2
    simpa using h2

/-- C7 (amended): the final filter of `make_plan` removes exactly the finished
artifacts: no plan entry is finished, every unfinished element of the sorted
aggregated plan is retained, and an artifact that was provided with a nonempty
filename list is finished and hence filtered out. -/
theorem C7_finished_filtered (fuel : Nat) (reg : IndexRegistry)
    (end_products : List String) (full plan : List (String × Nat))
    (hs : make_plan_sorted fuel reg end_products = .ok full)
    (hp : make_plan fuel reg end_products = .ok plan) :
    (∀ pr ∈ plan, (reg.getArt pr.1).is_finished = false) ∧
    (∀ pr ∈ full, (reg.getArt pr.1).is_finished = false → pr ∈ plan) ∧
    (∀ pr ∈ full, (reg.getArt pr.1).provided_directly = true →
      (reg.getArt pr.1).filenames ≠ [] → pr ∉ plan) := by
  have hplan : plan = full.filter (fun pr => !(reg.getArt pr.1).is_finished) := by
    simp only [make_plan, hs] at hp
    cases hp
    rfl
  subst hplan
  refine ⟨?_, ?_, ?_⟩
  · intro pr hpr
    have h2 := (List.mem_filter.mp hpr).2
    simpa using h2
  · intro pr hpr hfin
    exact List.mem_filter.mpr ⟨hpr, by simp [hfin]⟩
  · intro pr _ _ hfns hmem
    have h2 := (List.mem_filter.mp hmem).2
    simp [IndexFile.is_finished, List.isEmpty_iff] at h2
    exact hfns h2

/-- Witness for C7: in the `regChain` run for target `C`, the unfinished `B` is
retained and the provided `A` is filtered out. -/
theorem C7_witness :
    (regChain.getArt "B").is_finished = false ∧
    ("A", 0) ∉ [(("B" : String), (0 : Nat)), ("C", 0)] := by
  have h := C7_finished_filtered 100 regChain ["C"]
    [("A", 0), ("B", 0), ("C", 0)] [("B", 0), ("C", 0)] rfl rfl
  refine ⟨h.1 ("B", 0) (by decide), ?_⟩
  refine h.2.2 ("A", 0) (by decide) rfl ?_
  intro hc
  cases hc

/-! ## The provided-implies-finished invariant -/

/-- The invariant of claim C8: every directly provided artifact is finished. -/
def ProvInv (reg : IndexRegistry) : Prop :=
  ∀ f ∈ reg.registry, f.provided_directly = true → f.is_finished = true

/-- An ordered insertion is a permutation of pushing at the front. -/
theorem insertSorted_perm (f : IndexFile) :
    ∀ l : List IndexFile, (insertSorted f l).Perm (f :: l) := by
  intro l
  induction l with
  | nil => exact List.Perm.refl _
  | cons g t ih =>
    rw [insertSorted]
    cases hcmp : compare f.identifier g.identifier with
    | lt => exact List.Perm.refl _
    | eq => exact (ih.cons g).trans (List.Perm.swap f g t)
    | gt => exact (ih.cons g).trans (List.Perm.swap f g t)

/-- Lookup of an updated registry: the found record is the mapped one. -/
theorem findArt_updateArt (reg : IndexRegistry) (identifier x : String)
    (g : IndexFile → IndexFile) (hg : ∀ f, (g f).identifier = f.identifier) :
    (reg.updateArt identifier g).findArt x =
      (reg.findArt x).map (fun f => if f.identifier == identifier then g f else f) := by
  unfold IndexRegistry.findArt IndexRegistry.updateArt
  rw [List.find?_map]
  have hpred : ((fun f : IndexFile => f.identifier == x) ∘
      fun f => if (f.identifier == identifier) = true then g f else f)
      = (fun f : IndexFile => f.identifier == x) := by
    funext f
    by_cases hid : (f.identifier == identifier) = true
    · simp only [Function.comp_apply, if_pos hid, hg]
    · simp only [Function.comp_apply, if_neg hid]
  rw [hpred]

/-- Updating one record through a field-preserving function preserves the
provided flag of every lookup. -/
theorem getArt_updateArt_provided (reg : IndexRegistry) (identifier x : String)
    (g : IndexFile → IndexFile) (hg : ∀ f, (g f).identifier = f.identifier)
    (hgp : ∀ f, (g f).provided_directly = f.provided_directly) :
    ((reg.updateArt identifier g).getArt x).provided_directly =
      (reg.getArt x).provided_directly := by
  unfold IndexRegistry.getArt
  rw [findArt_updateArt reg identifier x g hg]
  cases reg.findArt x with
  | none => rfl
  | some f =>
    show (if (f.identifier == identifier) = true then g f else f).provided_directly
      = f.provided_directly
    by_cases hid : (f.identifier == identifier) = true
    · rw [if_pos hid]
      exact hgp f
    · rw [if_neg hid]

/-- `updateArt` with an identifier-preserving function preserves the identifier
list. -/
theorem ids_updateArt (reg : IndexRegistry) (identifier : String)
    (g : IndexFile → IndexFile) (hg : ∀ f, (g f).identifier = f.identifier) :
    (reg.updateArt identifier g).ids = reg.ids := by
  unfold IndexRegistry.ids IndexRegistry.updateArt
  rw [List.map_map]
  apply List.map_congr_left
  intro f _
  by_cases hid : (f.identifier == identifier) = true
  · simp only [Function.comp_apply, if_pos hid, hg]
  · simp only [Function.comp_apply, if_neg hid]

/-- The invariant survives an update that, on the record of the updated
identifier, maps invariant-satisfying records to invariant-satisfying ones. -/
theorem ProvInv_updateArt {reg : IndexRegistry} {identifier : String}
    {g : IndexFile → IndexFile} (h : ProvInv reg)
    (hg : ∀ f ∈ reg.registry, f.identifier = identifier →
      ((g f).provided_directly = true → (g f).is_finished = true)) :
    ProvInv (reg.updateArt identifier g) := by
  intro f2 hf2 hprov
  unfold IndexRegistry.updateArt at hf2
  rcases List.mem_map.mp hf2 with ⟨f, hf, heq⟩
  by_cases hid : (f.identifier == identifier) = true
  · rw [if_pos hid] at heq
    subst heq
    exact hg f hf (by simpa using hid) hprov
  · rw [if_neg hid] at heq
    subst heq
    exact h f hf hprov

/-- In a duplicate-free record list, `find?` by identifier returns the member
itself. -/
theorem find?_of_mem_nodup :
    ∀ l : List IndexFile, (l.map (fun f => f.identifier)).Nodup →
      ∀ f ∈ l, l.find? (fun g => g.identifier == f.identifier) = some f := by
  intro l
  induction l with
  | nil => intro _ f hf; cases hf
  | cons a t ih =>
    intro hnd f hf
    rw [List.map_cons, List.nodup_cons] at hnd
    rcases List.mem_cons.mp hf with rfl | hf2
    · rw [List.find?_cons_of_pos]
      simp
    · rw [List.find?_cons_of_neg]
      · exact ih hnd.2 f hf2
      · intro hbeq
        have he : a.identifier = f.identifier := by simpa using hbeq
        exact hnd.1 (he ▸ List.mem_map_of_mem _ hf2)

/-- With a duplicate-free registry the looked-up record is the member itself. -/
theorem getArt_of_mem {reg : IndexRegistry} {f : IndexFile}
    (hnd : reg.ids.Nodup) (hf : f ∈ reg.registry) :
    reg.getArt f.identifier = f := by
  unfold IndexRegistry.getArt IndexRegistry.findArt
  rw [find?_of_mem_nodup reg.registry hnd f hf]
  rfl

/-- The execution walk preserves the provided-implies-finished invariant and
the duplicate-freeness of the identifiers, as long as no executed artifact is
directly provided at the outset. -/
theorem ProvInv_execPlan (ids : List String) :
    ∀ (plan : List (String × Nat)) (reg reg2 : IndexRegistry),
      ProvInv reg → reg.ids.Nodup →
      (∀ pr ∈ plan, (reg.getArt pr.1).provided_directly = false) →
      execPlan ids reg plan = .ok reg2 →
      ProvInv reg2 ∧ reg2.ids.Nodup := by
  intro plan
  induction plan with
  | nil =>
    intro reg reg2 hinv hnd _ h
    cases h
    exact ⟨hinv, hnd⟩
  | cons step rest ih =>
    intro reg reg2 hinv hnd hstart h
    simp only [execPlan] at h
    split at h
    · cases h
    · rename_i reg4 heq
      rcases execute_recipe_ok heq with ⟨fns, rfl⟩
      refine ih _ _ ?_ ?_ ?_ h
      · refine ProvInv_updateArt hinv ?_
        intro f hf hfid hprov
        exfalso
        have hget : reg.getArt step.1 = f := by
          rw [← hfid]
          exact getArt_of_mem hnd hf
        have hsp := hstart step (List.mem_cons_self step rest)
        rw [hget] at hsp
        rw [hsp] at hprov
        cases hprov
      · rw [ids_updateArt]
        · exact hnd
        · intro f
          rfl
      · intro pr2 hpr2
        rw [getArt_updateArt_provided]
        · exact hstart pr2 (List.mem_cons_of_mem step hpr2)
        · intro f
          rfl
        · intro f
          rfl

/-- The combined invariant carried through the nonempty-provide reachability:
every provided artifact is finished and identifiers are duplicate-free. -/
theorem reachableNE_inv {reg : IndexRegistry} (h : ReachableNE reg) :
    ProvInv reg ∧ reg.ids.Nodup := by
  induction h with
  | init => exact ⟨fun f hf => absurd hf (List.not_mem_nil f), List.nodup_nil⟩
  | step hre hne hop ih =>
    rename_i reg0 reg2 op
    rcases ih with ⟨hinv, hnd⟩
    cases op with
    | reg_index identifier suffix =>
      simp only [applyOp, IndexRegistry.register_index] at hop
      split at hop
      · cases hop
      · split at hop
        · cases hop
        · split at hop
          · cases hop
          · split at hop
            · cases hop
            · rename_i hdup _
              cases hop
              constructor
              · intro f hf hprov
                rcases List.mem_cons.mp ((insertSorted_perm _ _).mem_iff.mp hf) with h1 | h1
                · subst h1
                  cases hprov
                · exact hinv f h1 hprov
              · have hperm := (insertSorted_perm (IndexFile.init identifier suffix)
                  reg0.registry).map (fun f => f.identifier)
                refine (List.Perm.nodup_iff hperm).mpr ?_
                rw [List.map_cons]
                refine List.nodup_cons.mpr ⟨?_, hnd⟩
                intro hmem
                rcases List.mem_map.mp hmem with ⟨f, hf, hfe⟩
                refine hdup (List.any_eq_true.mpr ⟨f, hf, ?_⟩)
                rw [hfe]
                exact beq_self_eq_true identifier
    | reg_recipe identifier inputs exec =>
      simp only [applyOp, IndexRegistry.register_recipe] at hop
      split at hop
      · split at hop
        · cases hop
        · cases hop
          constructor
          · refine ProvInv_updateArt hinv ?_
            intro f hf _ hprov
            exact hinv f hf hprov
          · rw [ids_updateArt]
            · exact hnd
            · intro f
              rfl
      · cases hop
    | do_provide identifier filenames =>
      have hfne : filenames ≠ [] := by
        intro he
        subst he
        exact hne identifier rfl
      simp only [applyOp, IndexRegistry.provide] at hop
      split at hop
      · cases hop
      · cases hop
        constructor
        · refine ProvInv_updateArt hinv ?_
          intro f hf _ _
          simp [IndexFile.provide, IndexFile.is_finished, List.isEmpty_iff, hfne]
        · rw [ids_updateArt]
          · exact hnd
          · intro f
            rfl
    | do_make fuel identifiers =>
      simp only [applyOp] at hop
      split at hop
      · cases hop
      · rename_i pr hmk
        cases hop
        unfold make_indexes at hmk
        split at hmk
        · cases hmk
        · rename_i plan hplan
          split at hmk
          · cases hmk
          · rename_i reg3 hexec
            have hstart : ∀ pr2 ∈ plan, (reg0.getArt pr2.1).provided_directly = false := by
              intro pr2 hpr2
              have hnf := make_plan_not_finished hplan pr2 hpr2
              by_cases hfind : (reg0.findArt pr2.1).isSome
              · rcases Option.isSome_iff_exists.mp hfind with ⟨f, hfeq⟩
                have hfmem : f ∈ reg0.registry := List.mem_of_find?_eq_some hfeq
                have hfget : reg0.getArt pr2.1 = f := by
                  unfold IndexRegistry.getArt
                  rw [hfeq]
                  rfl
                rw [hfget]
                by_contra hc
                rw [Bool.not_eq_false] at hc
                have hfin := hinv f hfmem hc
                rw [hfget, hfin] at hnf
                cases hnf
              · unfold IndexRegistry.getArt
                rw [Option.not_isSome_iff_eq_none.mp hfind]
                rfl
            have hmain := ProvInv_execPlan identifiers plan reg0 reg3 hinv hnd hstart hexec
            split at hmk
            · cases hmk
              exact hmain
            · cases hmk
              exact hmain

/-- C8 (amended): in every registry state reachable through the public
operations in which every `provide` call passed a nonempty filename list,
every artifact whose `provided_directly` flag is true is finished, i.e. has a
nonempty filename list. -/
theorem C8_provided_implies_finished (reg : IndexRegistry) (h : ReachableNE reg) :
    ∀ f ∈ reg.registry, f.provided_directly = true → f.is_finished = true :=
  (reachableNE_inv h).1

/-- Witness for C8 at the concrete `regChain` state: the provided `A` is
finished. -/
theorem C8_witness :
    (regChain.getArt "A").provided_directly = true ∧
    (regChain.getArt "A").is_finished = true := by
  have hre : ReachableNE regChain := by
    refine reachableNE_of_applyOps regChainOps ?_ ReachableNE.init rfl
    intro op hop identifier
    simp only [regChainOps, List.mem_cons, List.not_mem_nil, or_false] at hop
    rcases hop with rfl | rfl | rfl | rfl | rfl | rfl
    · intro h2; cases h2
    · intro h2; cases h2
    · intro h2; cases h2
    · intro h2; cases h2
    · intro h2; cases h2
    · intro h2; cases h2
  have h := C8_provided_implies_finished regChain hre
  refine ⟨rfl, h (regChain.getArt "A")
    (List.mem_of_find?_eq_some (show regChain.registry.find?
      (fun f => f.identifier == "A") = some (regChain.getArt "A") from rfl)) rfl⟩

/-- The final registry state of the `regChain` run requesting `C`. -/
def regChainAfter : IndexRegistry :=
  ((make_indexes 100 regChain ["C"]).toOption.getD (IndexRegistry.init, [])).1

/-- Witness for C6: running the `A → B → C` chain for target `C` deletes
exactly the intermediate file of `B`. -/
theorem C6_witness :
    regChain.keep_intermediates = false ∧
    make_indexes 100 regChain ["C"] = .ok (regChainAfter, ["tmp/sha1-B.b"]) ∧
    ("tmp/sha1-B.b" ∈ ["tmp/sha1-B.b"] ↔
      ((∃ f ∈ regChainAfter.registry,
          isIntermediate ["C"] f = true ∧ "tmp/sha1-B.b" ∈ f.filenames) ∧
       (∀ f ∈ regChainAfter.registry,
          isIntermediate ["C"] f = false → "tmp/sha1-B.b" ∉ f.filenames))) :=
  ⟨rfl, rfl,
    C6_cleanup_deletes_exactly 100 regChain ["C"] regChainAfter ["tmp/sha1-B.b"]
      rfl rfl "tmp/sha1-B.b"⟩

/-! ## Kahn's algorithm: correctness of the emitted order -/

/-- `updAt` preserves the length. -/
theorem updAt_length (g : α → α) : ∀ (i : Nat) (l : List α), (updAt i g l).length = l.length := by
  intro i l
  induction l generalizing i with
  | nil => rfl
  | cons a t ih =>
    rw [updAt]
    by_cases hi : i = 0
    · rw [if_pos hi]
      rfl
    · rw [if_neg hi]
      simp [ih]

/-- Reading an untouched position of `updAt`. -/
theorem getD_updAt_ne (g : α → α) (d : α) :
    ∀ (i k : Nat) (l : List α), k ≠ i → (updAt i g l).getD k d = l.getD k d := by
  intro i k l
  induction l generalizing i k with
  | nil => intro _; rfl
  | cons a t ih =>
    intro hk
    rw [updAt]
    by_cases hi : i = 0
    · rw [if_pos hi]
      subst hi
      match k, hk with
      | k + 1, _ => rfl
    · rw [if_neg hi]
      match k with
      | 0 => rfl
      | k + 1 =>
        show (updAt (i - 1) g t).getD k d = t.getD k d
        refine ih (i - 1) k ?_
        intro he
        subst he
        exact hi (by omega)

/-- Reading the updated position of `updAt` when it is in range. -/
theorem getD_updAt_self (g : α → α) (d : α) :
    ∀ (i : Nat) (l : List α), i < l.length → (updAt i g l).getD i d = g (l.getD i d) := by
  intro i l
  induction l generalizing i with
  | nil => intro h; cases h
  | cons a t ih =>
    intro hi
    rw [updAt]
    by_cases h0 : i = 0
    · rw [if_pos h0]
      subst h0
      rfl
    · rw [if_neg h0]
      match i, h0 with
      | i + 1, _ =>
        show (updAt i g t).getD i d = g (t.getD i d)
        exact ih i (by simpa using hi)

/-- Characterisation of the successor-visiting fold of one Kahn round: the
in-degree vector loses one on exactly the visited successors, and the new
stack gains exactly the successors whose in-degree was one, in reverse visit
order. -/
theorem kahnFold_char :
    ∀ (l : List Nat), l.Nodup →
      ∀ (stack : List Nat) (deg : List Int), (∀ j ∈ l, j < deg.length) →
      (l.foldl kahnVisit (stack, deg)).2.length = deg.length ∧
      (∀ j, (l.foldl kahnVisit (stack, deg)).2.getD j 0
          = deg.getD j 0 - (if j ∈ l then 1 else 0)) ∧
      (l.foldl kahnVisit (stack, deg)).1
          = (l.filter (fun j => deg.getD j 0 = 1)).reverse ++ stack := by
  intro l
  induction l with
  | nil =>
    intro _ stack deg _
    refine ⟨rfl, ?_, rfl⟩
    intro j
    simp
  | cons j t ih =>
    intro hnd stack deg hbound
    rw [List.nodup_cons] at hnd
    have hjlen : j < deg.length := hbound j (List.mem_cons_self j t)
    rw [List.foldl_cons]
    have hvisit : kahnVisit (stack, deg) j =
        (if deg.getD j 0 = 1 then j :: stack else stack, updAt j (fun d => d - 1) deg) := by
      unfold kahnVisit
      have hd2 : (updAt j (fun d => d - 1) deg).getD j 0 = deg.getD j 0 - 1 :=
        getD_updAt_self _ _ j deg hjlen
      dsimp only
      rw [hd2]
      by_cases h1 : deg.getD j 0 = 1
      · rw [if_pos (by omega), if_pos h1]
      · rw [if_neg (by omega), if_neg h1]
    rw [hvisit]
    have hlen2 : ∀ k ∈ t, k < (updAt j (fun d => d - 1) deg).length := by
      intro k hk
      rw [updAt_length]
      exact hbound k (List.mem_cons_of_mem j hk)
    rcases ih hnd.2 (if deg.getD j 0 = 1 then j :: stack else stack)
      (updAt j (fun d => d - 1) deg) hlen2 with ⟨ihlen, ihdeg, ihstack⟩
    refine ⟨by rw [ihlen, updAt_length], ?_, ?_⟩
    · intro k
      rw [ihdeg k]
      by_cases hkj : k = j
      · subst hkj
        rw [getD_updAt_self _ _ k deg hjlen]
        have hkt : k ∉ t := hnd.1
        simp [hkt]
      · rw [getD_updAt_ne _ _ j k deg hkj]
        by_cases hkt : k ∈ t
        · simp [hkt, List.mem_cons, hkj]
        · simp [hkt, List.mem_cons, hkj]
    · rw [ihstack]
      have hfeq : t.filter (fun k => (updAt j (fun d => d - 1) deg).getD k 0 = 1)
          = t.filter (fun k => deg.getD k 0 = 1) := by
        refine List.filter_congr ?_
        intro k hk
        have hkj : k ≠ j := fun he => hnd.1 (he ▸ hk)
        rw [getD_updAt_ne _ _ j k deg hkj]
      rw [hfeq, List.filter_cons]
      by_cases h1 : deg.getD j 0 = 1
      · rw [if_pos h1, if_pos (decide_eq_true h1)]
        rw [List.reverse_cons, List.append_assoc]
        rfl
      · rw [if_neg h1, if_neg (fun hc => h1 (of_decide_eq_true hc))]


/-- Reading an appended list below the first part's length. -/
theorem getD_append_lt {l1 l2 : List α} {q : Nat} (d : α) (h : q < l1.length) :
    (l1 ++ l2).getD q d = l1.getD q d := by
  rw [List.getD_eq_getElem _ _ (by rw [List.length_append]; omega),
    List.getD_eq_getElem _ _ h, List.getElem_append_left h]

/-- Reading the appended element. -/
theorem getD_snoc (l : List α) (a d : α) : (l ++ [a]).getD l.length d = a := by
  rw [List.getD_eq_getElem _ _ (by simp)]
  simp

/-- A counting argument: if the elements of a duplicate-free list of numbers
below `n` satisfying a predicate are as numerous as all numbers below `n`
satisfying it, then the list contains every such number. -/
theorem mem_of_countP_eq {p : Nat → Bool} {order : List Nat} {n : Nat}
    (hnd : order.Nodup) (hsub : ∀ x ∈ order, x < n)
    (hcnt : (List.range n).countP p = order.countP p) :
    ∀ i, i < n → p i = true → i ∈ order := by
  intro i hi hp
  have hsubf : (order.filter p).toFinset ⊆ ((List.range n).filter p).toFinset := by
    intro x hx
    rw [List.mem_toFinset] at hx
    rcases List.mem_filter.mp hx with ⟨hx1, hx2⟩
    exact List.mem_toFinset.mpr (List.mem_filter.mpr ⟨List.mem_range.mpr (hsub x hx1), hx2⟩)
  have h1 : (order.filter p).toFinset.card = (order.filter p).length :=
    List.toFinset_card_of_nodup (hnd.filter p)
  have h2 : ((List.range n).filter p).toFinset.card = ((List.range n).filter p).length :=
    List.toFinset_card_of_nodup ((List.nodup_range n).filter p)
  have heq : (order.filter p).toFinset = ((List.range n).filter p).toFinset := by
    refine Finset.eq_of_subset_of_card_le hsubf ?_
    rw [h1, h2, ← List.countP_eq_length_filter, ← List.countP_eq_length_filter, hcnt]
  have hmem : i ∈ ((List.range n).filter p).toFinset :=
    List.mem_toFinset.mpr (List.mem_filter.mpr ⟨List.mem_range.mpr hi, hp⟩)
  rw [← heq] at hmem
  exact (List.mem_filter.mp (List.mem_toFinset.mp hmem)).1

/-- The predecessor test of vertex `j` against vertex `i`: is there an edge
from `i` to `j`. -/
def isPred (adj : List (List Nat)) (j i : Nat) : Bool :=
  decide (j ∈ adj.getD i [])

/-- The loop invariant of Kahn's algorithm: the emitted order and the stack are
duplicate-free and bounded; emitted and stacked vertices have used up their
in-degree; the in-degree of a vertex counts its predecessors outside the
emitted order; every stacked vertex has all predecessors emitted; and every
emitted vertex has all predecessors emitted before it. -/
structure KahnInv (adj : List (List Nat)) (n : Nat)
    (stack : List Nat) (deg : List Int) (order : List Nat) : Prop where
  nodup : (order ++ stack).Nodup
  bound : ∀ i ∈ order ++ stack, i < n
  degLen : deg.length = n
  nonpos : ∀ j ∈ order ++ stack, deg.getD j 0 ≤ 0
  count : ∀ j, j < n → deg.getD j 0
      = ((List.range n).countP (isPred adj j) : Int) - (order.countP (isPred adj j) : Int)
  closed : ∀ j ∈ stack, ∀ i, i < n → isPred adj j i = true → i ∈ order
  topo : ∀ q, q < order.length → ∀ i, i < n →
      isPred adj (order.getD q 0) i = true → i ∈ order.take q

/-- The result of Kahn's loop from an invariant state is duplicate-free,
bounded, and topologically closed: every predecessor of an emitted vertex is
emitted before it. -/
theorem kahnLoop_spec (adj : List (List Nat)) (n : Nat)
    (hadj : ∀ i j, j ∈ adj.getD i [] → j < n)
    (hadjnd : ∀ i, (adj.getD i []).Nodup) :
    ∀ fuel stack deg order, KahnInv adj n stack deg order →
      (kahnLoop adj fuel stack deg order).Nodup ∧
      (∀ i ∈ kahnLoop adj fuel stack deg order, i < n) ∧
      (∀ q, q < (kahnLoop adj fuel stack deg order).length → ∀ i, i < n →
        isPred adj ((kahnLoop adj fuel stack deg order).getD q 0) i = true →
        i ∈ (kahnLoop adj fuel stack deg order).take q) := by
  intro fuel
  induction fuel with
  | zero =>
    intro stack deg order hinv
    rw [kahnLoop]
    exact ⟨(List.nodup_append.mp hinv.nodup).1,
      fun i hi => hinv.bound i (List.mem_append.mpr (Or.inl hi)), hinv.topo⟩
  | succ fuel ih =>
    intro stack deg order hinv
    match stack with
    | [] =>
      rw [kahnLoop]
      exact ⟨(List.nodup_append.mp hinv.nodup).1,
        fun i hi => hinv.bound i (List.mem_append.mpr (Or.inl hi)), hinv.topo⟩
    | i :: rest =>
      rw [kahnLoop]
      refine ih _ _ _ ?_
      have hin : i < n :=
        hinv.bound i (List.mem_append.mpr (Or.inr (List.mem_cons_self i rest)))
      have hfc := kahnFold_char (adj.getD i []) (hadjnd i) rest deg
        (fun j hj => by rw [hinv.degLen]; exact hadj i j hj)
      rcases hfc with ⟨hlen, hdeg, hstack⟩
      rw [hstack]
      set pushed := (adj.getD i []).filter (fun j => deg.getD j 0 = 1) with hpushed
      have hmid := List.nodup_middle.mp hinv.nodup
      rw [List.nodup_cons] at hmid
      have hpmem : ∀ j ∈ pushed, deg.getD j 0 = 1 ∧ j ∈ adj.getD i [] := by
        intro j hj
        rcases List.mem_filter.mp hj with ⟨hj1, hj2⟩
        exact ⟨of_decide_eq_true hj2, hj1⟩
      have hpnotold : ∀ j ∈ pushed, j ∉ order ++ i :: rest := by
        intro j hj hmem
        have h1 := hinv.nonpos j hmem
        rw [(hpmem j hj).1] at h1
        omega
      have hperm : ((order ++ [i]) ++ (pushed.reverse ++ rest)).Perm
          ((order ++ i :: rest) ++ pushed) := by
        have hinner : (pushed.reverse ++ rest).Perm (rest ++ pushed) :=
          ((pushed.reverse_perm).append_right rest).trans List.perm_append_comm
        have h1 : ((order ++ [i]) ++ (pushed.reverse ++ rest)).Perm
            ((order ++ [i]) ++ (rest ++ pushed)) := hinner.append_left (order ++ [i])
        have he : (order ++ [i]) ++ (rest ++ pushed) = (order ++ i :: rest) ++ pushed := by
          simp [List.append_assoc]
        exact h1.trans (he ▸ List.Perm.refl _)
      have hnodup2 : ((order ++ [i]) ++ (pushed.reverse ++ rest)).Nodup := by
        refine (List.Perm.nodup_iff hperm).mpr ?_
        refine List.nodup_append.mpr ⟨hinv.nodup, (hadjnd i).filter _, ?_⟩
        intro a ha hb
        exact hpnotold a hb ha
      have hboundNew : ∀ j ∈ (order ++ [i]) ++ (pushed.reverse ++ rest), j < n := by
        intro j hj
        rcases List.mem_append.mp hj with h1 | h1
        · rcases List.mem_append.mp h1 with h2 | h2
          · exact hinv.bound j (List.mem_append.mpr (Or.inl h2))
          · rw [List.mem_singleton] at h2
            exact h2 ▸ hin
        · rcases List.mem_append.mp h1 with h2 | h2
          · exact hadj i j (hpmem j (List.mem_reverse.mp h2)).2
          · exact hinv.bound j
              (List.mem_append.mpr (Or.inr (List.mem_cons_of_mem i h2)))
      have hcountNew : ∀ j, j < n →
          (List.foldl kahnVisit (rest, deg) (adj.getD i [])).2.getD j 0
            = ((List.range n).countP (isPred adj j) : Int)
              - ((order ++ [i]).countP (isPred adj j) : Int) := by
        intro j hj
        rw [hdeg j, hinv.count j hj, List.countP_append]
        have hsingle : ([i] : List Nat).countP (isPred adj j)
            = if j ∈ adj.getD i [] then 1 else 0 := by
          by_cases hm : j ∈ adj.getD i []
          · rw [if_pos hm]
            have hp2 : isPred adj j i = true := decide_eq_true hm
            simp [List.countP_cons, hp2]
          · rw [if_neg hm]
            have hp2 : isPred adj j i = false := by
              unfold isPred
              exact decide_eq_false hm
            simp [List.countP_cons, hp2]
        rw [hsingle]
        by_cases hm : j ∈ adj.getD i []
        · rw [if_pos hm, if_pos hm]
          push_cast
          ring
        · rw [if_neg hm, if_neg hm]
          push_cast
          ring
      have hordNew : (order ++ [i]).Nodup := (List.nodup_append.mp hnodup2).1
      have hordNewBound : ∀ x ∈ order ++ [i], x < n := by
        intro x hx
        exact hboundNew x (List.mem_append.mpr (Or.inl hx))
      refine ⟨hnodup2, hboundNew, by rw [hlen]; exact hinv.degLen, ?_, hcountNew, ?_, ?_⟩
      · intro j hj
        rcases List.mem_append.mp hj with h1 | h1
        · have hold : j ∈ order ++ i :: rest := by
            rcases List.mem_append.mp h1 with h2 | h2
            · exact List.mem_append.mpr (Or.inl h2)
            · rw [List.mem_singleton] at h2
              exact List.mem_append.mpr (Or.inr (h2 ▸ List.mem_cons_self i rest))
          have h2 := hinv.nonpos j hold
          rw [hdeg j]
          split
          · omega
          · omega
        · rcases List.mem_append.mp h1 with h2 | h2
          · have hp := hpmem j (List.mem_reverse.mp h2)
            rw [hdeg j, if_pos hp.2, hp.1]
            omega
          · have h3 := hinv.nonpos j
              (List.mem_append.mpr (Or.inr (List.mem_cons_of_mem i h2)))
            rw [hdeg j]
            split
            · omega
            · omega
      · intro j hj i2 hi2 hpred
        rcases List.mem_append.mp hj with h2 | h2
        · have hp := hpmem j (List.mem_reverse.mp h2)
          have hj0 : (List.foldl kahnVisit (rest, deg) (adj.getD i [])).2.getD j 0 = 0 := by
            rw [hdeg j, if_pos hp.2, hp.1]
            omega
          have hjn : j < n := hadj i j hp.2
          have hcnt0 := hcountNew j hjn
          rw [hj0] at hcnt0
          have hcnteq : (List.range n).countP (isPred adj j)
              = (order ++ [i]).countP (isPred adj j) := by omega
          exact mem_of_countP_eq hordNew hordNewBound hcnteq i2 hi2 hpred
        · exact List.mem_append.mpr
            (Or.inl (hinv.closed j (List.mem_cons_of_mem i h2) i2 hi2 hpred))
      · intro q hq i2 hi2 hpred
        rw [List.length_append, List.length_singleton] at hq
        by_cases hql : q < order.length
        · rw [getD_append_lt 0 hql] at hpred
          rw [List.take_append_of_le_length (Nat.le_of_lt hql)]
          exact hinv.topo q hql i2 hi2 hpred
        · have hq2 : q = order.length := by omega
          subst hq2
          rw [getD_snoc] at hpred
          rw [List.take_append_of_le_length (Nat.le_refl _), List.take_length]
          exact hinv.closed i (List.mem_cons_self i rest) i2 hi2 hpred


/-- The built graph has one adjacency list per label. -/
theorem buildGraph_length (reg : IndexRegistry) (labels : List String) :
    (buildGraph reg labels).length = labels.length := by
  unfold buildGraph
  refine List.foldlRecOn
    (motive := fun (adj : List (List Nat)) => adj.length = labels.length) _ _ _
    (List.length_replicate _ _) ?_
  intro adj hadj i _
  refine List.foldlRecOn
    (motive := fun (adj : List (List Nat)) => adj.length = labels.length) _ _ _ hadj ?_
  intro adj2 hadj2 recipe _
  refine List.foldlRecOn
    (motive := fun (adj : List (List Nat)) => adj.length = labels.length) _ _ _ hadj2 ?_
  intro adj3 hadj3 input _
  rw [updAt_length]
  exact hadj3

/-- The deduplicated adjacency has one list per registered identifier. -/
theorem depAdj_length (reg : IndexRegistry) : (depAdj reg).length = reg.ids.length := by
  unfold depAdj
  rw [List.length_map]
  exact buildGraph_length reg reg.ids

/-- The insertion keeps an ascending list ascending. -/
theorem insertNat_sorted (a : Nat) :
    ∀ l : List Nat, l.Sorted (· ≤ ·) → (insertNat a l).Sorted (· ≤ ·) := by
  intro l
  induction l with
  | nil =>
    intro _
    simp [insertNat]
  | cons b t ih =>
    intro hs
    rcases List.sorted_cons.mp hs with ⟨hb, ht⟩
    rw [insertNat]
    by_cases hab : a ≤ b
    · rw [if_pos hab]
      refine List.sorted_cons.mpr ⟨?_, hs⟩
      intro c hc
      rcases List.mem_cons.mp hc with rfl | hc2
      · exact hab
      · exact Nat.le_trans hab (hb c hc2)
    · rw [if_neg hab]
      refine List.sorted_cons.mpr ⟨?_, ih ht⟩
      intro c hc
      rcases (mem_insertNat _).mp hc with rfl | hc2
      · omega
      · exact hb c hc2

/-- The insertion sort produces an ascending list. -/
theorem sortNat_sorted : ∀ l : List Nat, (sortNat l).Sorted (· ≤ ·) := by
  intro l
  induction l with
  | nil => simp [sortNat]
  | cons a t ih =>
    rw [sortNat]
    exact insertNat_sorted a _ ih

/-- Removing consecutive duplicates of an ascending list leaves no duplicates. -/
theorem dedupSorted_nodup : ∀ l : List Nat, l.Sorted (· ≤ ·) → (dedupSorted l).Nodup := by
  intro l
  induction l with
  | nil =>
    intro _
    simp [dedupSorted]
  | cons a t ih =>
    intro hs
    match t with
    | [] => simp [dedupSorted]
    | c :: t2 =>
      rcases List.sorted_cons.mp hs with ⟨ha, hct⟩
      rw [dedupSorted]
      by_cases hac : a = c
      · rw [if_pos hac]
        exact ih hct
      · rw [if_neg hac]
        refine List.nodup_cons.mpr ⟨?_, ih hct⟩
        intro hmem
        rw [mem_dedupSorted] at hmem
        have hax : a < c := Nat.lt_of_le_of_ne (ha c (List.mem_cons_self c t2)) hac
        rcases List.mem_cons.mp hmem with rfl | hmem2
        · omega
        · rcases List.sorted_cons.mp hct with ⟨hc, _⟩
          have := hc a hmem2
          omega

/-- Every adjacency list used by `dependency_order` is duplicate-free. -/
theorem depAdj_nodup (reg : IndexRegistry) : ∀ i, ((depAdj reg).getD i []).Nodup := by
  intro i
  by_cases hi : i < (depAdj reg).length
  · unfold depAdj at *
    rw [List.getD_eq_getElem _ _ hi, List.getElem_map]
    exact dedupSorted_nodup _ (sortNat_sorted _)
  · rw [List.getD_eq_default _ _ (Nat.le_of_not_lt hi)]
    exact List.nodup_nil

/-- Characterisation of the in-degree increment fold of one adjacency list. -/
theorem incFold_char :
    ∀ (l : List Nat) (deg : List Int), (∀ j2 ∈ l, j2 < deg.length) →
      ((l.foldl (fun deg j2 => updAt j2 (fun d => d + 1) deg) deg).length = deg.length) ∧
      ∀ j, (l.foldl (fun deg j2 => updAt j2 (fun d => d + 1) deg) deg).getD j 0
        = deg.getD j 0 + (l.count j : Int) := by
  intro l
  induction l with
  | nil =>
    intro deg _
    refine ⟨rfl, ?_⟩
    intro j
    simp
  | cons j2 t ih =>
    intro deg hb
    rw [List.foldl_cons]
    rcases ih (updAt j2 (fun d => d + 1) deg)
      (fun x hx => by rw [updAt_length]; exact hb x (List.mem_cons_of_mem j2 hx)) with
      ⟨ihlen, ihget⟩
    refine ⟨by rw [ihlen, updAt_length], ?_⟩
    intro j
    rw [ihget j]
    by_cases hj : j = j2
    · subst hj
      rw [getD_updAt_self _ _ j deg (hb j (List.mem_cons_self j t)),
        List.count_cons_self]
      push_cast
      ring
    · rw [getD_updAt_ne _ _ j2 j deg hj, List.count_cons_of_ne hj]

/-- Characterisation of the in-degree fold over all adjacency lists. -/
theorem degFold_char :
    ∀ (L : List (List Nat)) (deg : List Int),
      (∀ l ∈ L, ∀ j ∈ l, j < deg.length) → (∀ l ∈ L, l.Nodup) →
      ((L.foldl (fun deg l => l.foldl (fun deg j => updAt j (fun d => d + 1) deg) deg) deg).length
        = deg.length) ∧
      ∀ j, (L.foldl (fun deg l => l.foldl (fun deg j => updAt j (fun d => d + 1) deg) deg) deg).getD j 0
        = deg.getD j 0 + ((List.range L.length).countP (fun i => decide (j ∈ L.getD i [])) : Int) := by
  intro L
  induction L using List.reverseRecOn with
  | nil =>
    intro deg _ _
    refine ⟨rfl, ?_⟩
    intro j
    simp
  | append_singleton L l ih =>
    intro deg hb hnd
    rw [List.foldl_append, List.foldl_cons, List.foldl_nil]
    have hbL : ∀ l2 ∈ L, ∀ j ∈ l2, j < deg.length :=
      fun l2 h2 => hb l2 (List.mem_append.mpr (Or.inl h2))
    have hndL : ∀ l2 ∈ L, l2.Nodup :=
      fun l2 h2 => hnd l2 (List.mem_append.mpr (Or.inl h2))
    rcases ih deg hbL hndL with ⟨ihlen, ihget⟩
    have hbl : ∀ j ∈ l, j < (L.foldl (fun deg l => l.foldl (fun deg j => updAt j (fun d => d + 1) deg) deg) deg).length := by
      intro j hj
      rw [ihlen]
      exact hb l (List.mem_append.mpr (Or.inr (List.mem_singleton_self l))) j hj
    rcases incFold_char l _ hbl with ⟨flen, fget⟩
    refine ⟨by rw [flen, ihlen], ?_⟩
    intro j
    rw [fget j, ihget j, List.length_append, List.length_singleton, List.range_succ,
      List.countP_append]
    have hcnt1 : (List.range L.length).countP (fun i => decide (j ∈ (L ++ [l]).getD i []))
        = (List.range L.length).countP (fun i => decide (j ∈ L.getD i [])) := by
      rw [List.countP_eq_length_filter, List.countP_eq_length_filter]
      congr 1
      refine List.filter_congr ?_
      intro i hi
      rw [getD_append_lt [] (List.mem_range.mp hi)]
    have hcnt2 : ([L.length] : List Nat).countP (fun i => decide (j ∈ (L ++ [l]).getD i []))
        = if j ∈ l then 1 else 0 := by
      have hgl : (L ++ [l]).getD L.length [] = l := getD_snoc L l []
      by_cases hm : j ∈ l
      · rw [if_pos hm]
        have : decide (j ∈ (L ++ [l]).getD L.length []) = true := by
          rw [hgl]
          exact decide_eq_true hm
        simp [List.countP_cons, this, hm]
      · rw [if_neg hm]
        have : decide (j ∈ (L ++ [l]).getD L.length []) = false := by
          rw [hgl]
          exact decide_eq_false hm
        simp [List.countP_cons, this, hm]
    rw [hcnt1, hcnt2]
    have hcount : (l.count j : Int) = if j ∈ l then 1 else 0 := by
      by_cases hm : j ∈ l
      · rw [if_pos hm,
          List.count_eq_one_of_mem (hnd l (List.mem_append.mpr (Or.inr (List.mem_singleton_self l)))) hm]
        simp
      · rw [if_neg hm, List.count_eq_zero_of_not_mem hm]
        simp
    rw [hcount]
    by_cases hm : j ∈ l
    · rw [if_pos hm, if_pos hm]
      push_cast
      ring
    · rw [if_neg hm, if_neg hm]
      push_cast
      ring

/-- The initial state of Kahn's algorithm in `dependency_order` satisfies the
loop invariant. -/
theorem depKahn_initial (reg : IndexRegistry) :
    KahnInv (depAdj reg) reg.ids.length (depStack0 reg) (depDeg reg) [] := by
  have hadj : ∀ i j, j ∈ (depAdj reg).getD i [] → j < reg.ids.length :=
    depAdj_mem_lt reg reg.ids
  have hbL : ∀ l ∈ depAdj reg, ∀ j ∈ l, j < (List.replicate reg.ids.length (0 : Int)).length := by
    intro l hl j hj
    rw [List.length_replicate]
    rcases List.mem_iff_getElem.mp hl with ⟨i, hi, hieq⟩
    refine hadj i j ?_
    rw [List.getD_eq_getElem _ _ hi, hieq]
    exact hj
  have hndL : ∀ l ∈ depAdj reg, l.Nodup := by
    intro l hl
    rcases List.mem_iff_getElem.mp hl with ⟨i, hi, hieq⟩
    have := depAdj_nodup reg i
    rw [List.getD_eq_getElem _ _ hi, hieq] at this
    exact this
  have hchar := degFold_char (depAdj reg) (List.replicate reg.ids.length (0 : Int)) hbL hndL
  have hdeg0 : ∀ j, j < reg.ids.length →
      (depDeg reg).getD j 0 = ((List.range reg.ids.length).countP (isPred (depAdj reg) j) : Int) := by
    intro j hj
    unfold depDeg inDegrees
    rw [hchar.2 j]
    have hz : (List.replicate reg.ids.length (0 : Int)).getD j 0 = 0 := by
      rw [List.getD_eq_getElem _ _ (by simpa using hj)]
      simp
    rw [hz, depAdj_length, Int.zero_add]
    rfl
  have hdegLen : (depDeg reg).length = reg.ids.length := by
    unfold depDeg inDegrees
    rw [hchar.1, List.length_replicate]
  have hstackmem : ∀ j ∈ depStack0 reg, j < reg.ids.length ∧ (depDeg reg).getD j 0 = 0 := by
    intro j hj
    unfold depStack0 at hj
    rw [List.mem_reverse] at hj
    rcases List.mem_filter.mp hj with ⟨h1, h2⟩
    exact ⟨List.mem_range.mp h1, of_decide_eq_true h2⟩
  refine ⟨?_, ?_, hdegLen, ?_, ?_, ?_, ?_⟩
  · rw [List.nil_append]
    unfold depStack0
    exact List.nodup_reverse.mpr ((List.nodup_range _).filter _)
  · intro i hi
    rw [List.nil_append] at hi
    exact (hstackmem i hi).1
  · intro j hj
    rw [List.nil_append] at hj
    rw [(hstackmem j hj).2]
  · intro j hj
    rw [hdeg0 j hj]
    simp
  · intro j hj i hi hpred
    exfalso
    have h0 := (hstackmem j hj).2
    rw [hdeg0 j (hstackmem j hj).1] at h0
    have hc : (List.range reg.ids.length).countP (isPred (depAdj reg) j) = 0 := by omega
    exact (List.countP_eq_zero.mp hc) i (List.mem_range.mpr hi) hpred
  · intro q hq
    cases hq


/-- Reading every position of a list in order reproduces the list. -/
theorem map_getD_range (l : List α) (d : α) :
    (List.range l.length).map (fun i => l.getD i d) = l := by
  refine List.ext_getElem (by simp) ?_
  intro q h1 h2
  simp only [List.getElem_map, List.getElem_range]
  rw [List.getD_eq_getElem _ _ h2]

/-- A duplicate-free list of numbers below `n` of length `n` is a permutation
of `range n`. -/
theorem perm_range_of {order : List Nat} {n : Nat} (hnd : order.Nodup)
    (hsub : ∀ x ∈ order, x < n) (hlen : order.length = n) :
    order.Perm (List.range n) := by
  refine List.perm_of_nodup_nodup_toFinset_eq hnd (List.nodup_range n) ?_
  refine Finset.eq_of_subset_of_card_le ?_ ?_
  · intro x hx
    rw [List.mem_toFinset] at hx
    exact List.mem_toFinset.mpr (List.mem_range.mpr (hsub x hx))
  · rw [List.toFinset_card_of_nodup hnd, List.toFinset_card_of_nodup (List.nodup_range n),
      List.length_range, hlen]

/-- Unpacking a successful dependency-order computation: the emitted vertex
order is a duplicate-free, bounded permutation of `range n` that lists every
vertex after its predecessors, and the returned identifiers read the labels at
those vertices. -/
theorem dependency_order_ok {reg : IndexRegistry} {order : List String}
    (h : reg.dependency_order = .ok order) :
    order = (depKahnOrder reg).map (fun i => reg.ids.getD i "") ∧
    (depKahnOrder reg).length = reg.ids.length ∧
    (depKahnOrder reg).Nodup ∧
    (∀ i ∈ depKahnOrder reg, i < reg.ids.length) ∧
    (∀ q, q < (depKahnOrder reg).length → ∀ i, i < reg.ids.length →
      isPred (depAdj reg) ((depKahnOrder reg).getD q 0) i = true →
      i ∈ (depKahnOrder reg).take q) ∧
    (depKahnOrder reg).Perm (List.range reg.ids.length) := by
  have hspec := kahnLoop_spec (depAdj reg) reg.ids.length
    (depAdj_mem_lt reg reg.ids) (depAdj_nodup reg)
    (reg.ids.length + 1) (depStack0 reg) (depDeg reg) [] (depKahn_initial reg)
  revert h
  unfold IndexRegistry.dependency_order
  intro h
  split at h
  · cases h
  · rename_i hlen
    rw [Decidable.not_not] at hlen
    cases h
    refine ⟨rfl, hlen, hspec.1, hspec.2.1, hspec.2.2, ?_⟩
    exact perm_range_of hspec.1 hspec.2.1 hlen

/-- A successful dependency order is a permutation of the registered
identifiers. -/
theorem dependency_order_perm {reg : IndexRegistry} {order : List String}
    (h : reg.dependency_order = .ok order) : order.Perm reg.ids := by
  rcases dependency_order_ok h with ⟨heq, hlen, hnd, hbound, htopo, hperm⟩
  subst heq
  have h2 := hperm.map (fun i => reg.ids.getD i "")
  rw [map_getD_range reg.ids ""] at h2
  exact h2


/-- `findIdx?` on a member list finds an in-range position holding the member. -/
theorem findIdx?_mem {s : String} :
    ∀ l : List String, s ∈ l →
      ∃ k, l.findIdx? (fun x => x == s) = some k ∧ k < l.length ∧ l.getD k "" = s := by
  intro l
  induction l with
  | nil => intro h; cases h
  | cons a t ih =>
    intro h
    by_cases ha : a = s
    · refine ⟨0, ?_, Nat.succ_pos _, by simpa using ha⟩
      rw [List.findIdx?_cons]
      simp [ha]
    · have hst : s ∈ t := by
        rcases List.mem_cons.mp h with h1 | h1
        · exact absurd h1.symm ha
        · exact h1
      rcases ih hst with ⟨k, hfind, hk, hget⟩
      refine ⟨k + 1, ?_, by simpa using hk, by simpa using hget⟩
      rw [List.findIdx?_cons]
      simp [ha, hfind]

/-- A registered identifier occupies its `graphIdx` position in the labels. -/
theorem graphIdx_mem {labels : List String} {inp : String} (h : inp ∈ labels) :
    graphIdx labels inp < labels.length ∧ labels.getD (graphIdx labels inp) "" = inp := by
  rcases findIdx?_mem labels h with ⟨k, hfind, hk, hget⟩
  unfold graphIdx
  rw [hfind]
  exact ⟨hk, hget⟩

/-- Appending to one adjacency list preserves membership everywhere. -/
theorem mem_getD_updAt_append {j : Nat} (i : Nat) :
    ∀ (q p : Nat) (adj : List (List Nat)), j ∈ adj.getD p [] →
      j ∈ (updAt q (fun al => al ++ [i]) adj).getD p [] := by
  intro q p adj
  induction adj generalizing q p with
  | nil => intro h; simp at h
  | cons a t ih =>
    intro h
    rw [updAt]
    by_cases hq : q = 0
    · rw [if_pos hq]
      match p with
      | 0 => exact List.mem_append_left _ (by simpa using h)
      | p + 1 => simpa using h
    · rw [if_neg hq]
      match p with
      | 0 => simpa using h
      | p + 1 => exact ih (q - 1) p (by simpa using h)

/-- The fold over a recipe input list preserves adjacency membership. -/
theorem mem_inputs_fold {j p : Nat} (labels : List String) (i : Nat) :
    ∀ (inputs : List String) (adj : List (List Nat)), j ∈ adj.getD p [] →
      j ∈ (inputs.foldl
        (fun adj input => updAt (graphIdx labels input) (fun al => al ++ [i]) adj)
        adj).getD p [] := by
  intro inputs
  induction inputs with
  | nil => intro adj h; exact h
  | cons a t ih => intro adj h; exact ih _ (mem_getD_updAt_append i _ p adj h)

/-- The fold over a recipe list preserves adjacency membership. -/
theorem mem_recipes_fold {j p : Nat} (labels : List String) (i : Nat) :
    ∀ (recipes : List IndexRecipe) (adj : List (List Nat)), j ∈ adj.getD p [] →
      j ∈ (recipes.foldl
        (fun adj recipe => recipe.inputs.foldl
          (fun adj input => updAt (graphIdx labels input) (fun al => al ++ [i]) adj)
          adj)
        adj).getD p [] := by
  intro recipes
  induction recipes with
  | nil => intro adj h; exact h
  | cons r t ih => intro adj h; exact ih _ (mem_inputs_fold labels i r.inputs adj h)

/-- The outer fold over artifact indices preserves adjacency membership. -/
theorem mem_outer_fold {j p : Nat} (reg : IndexRegistry) (labels : List String) :
    ∀ (l : List Nat) (adj : List (List Nat)), j ∈ adj.getD p [] →
      j ∈ (l.foldl
        (fun adj i => ((reg.getArt (labels.getD i "")).recipes).foldl
          (fun adj recipe => recipe.inputs.foldl
            (fun adj input => updAt (graphIdx labels input) (fun al => al ++ [i]) adj)
            adj)
          adj)
        adj).getD p [] := by
  intro l
  induction l with
  | nil => intro adj h; exact h
  | cons a t ih =>
    intro adj h
    exact ih _ (mem_recipes_fold labels a _ adj h)

/-- The fold over a recipe input list preserves the adjacency length. -/
theorem inputs_fold_length (labels : List String) (i : Nat) :
    ∀ (inputs : List String) (adj : List (List Nat)),
      (inputs.foldl
        (fun adj input => updAt (graphIdx labels input) (fun al => al ++ [i]) adj)
        adj).length = adj.length := by
  intro inputs
  induction inputs with
  | nil => intro adj; rfl
  | cons a t ih =>
    intro adj
    rw [List.foldl_cons, ih, updAt_length]

/-- The fold over a recipe list preserves the adjacency length. -/
theorem recipes_fold_length (labels : List String) (i : Nat) :
    ∀ (recipes : List IndexRecipe) (adj : List (List Nat)),
      (recipes.foldl
        (fun adj recipe => recipe.inputs.foldl
          (fun adj input => updAt (graphIdx labels input) (fun al => al ++ [i]) adj)
          adj)
        adj).length = adj.length := by
  intro recipes
  induction recipes with
  | nil => intro adj; rfl
  | cons r t ih =>
    intro adj
    rw [List.foldl_cons, ih, inputs_fold_length]

/-- Processing the recipes of artifact `k` records `k` in the adjacency of each
recipe input. -/
theorem mem_after_artifact (reg : IndexRegistry) (labels : List String)
    {k : Nat} {r : IndexRecipe} {inp : String}
    (hr : r ∈ (reg.getArt (labels.getD k "")).recipes)
    (hinp : inp ∈ r.inputs)
    (hq : graphIdx labels inp < labels.length) :
    ∀ adj : List (List Nat), adj.length = labels.length →
      k ∈ (((reg.getArt (labels.getD k "")).recipes).foldl
        (fun adj recipe => recipe.inputs.foldl
          (fun adj input => updAt (graphIdx labels input) (fun al => al ++ [k]) adj)
          adj)
        adj).getD (graphIdx labels inp) [] := by
  intro adj hlen
  rcases List.append_of_mem hr with ⟨rs1, rs2, hrs⟩
  rw [hrs, List.foldl_append, List.foldl_cons]
  refine mem_recipes_fold labels k rs2 _ ?_
  rcases List.append_of_mem hinp with ⟨is1, is2, his⟩
  rw [his, List.foldl_append, List.foldl_cons]
  refine mem_inputs_fold labels k is2 _ ?_
  have hlen2 : (is1.foldl
      (fun adj input => updAt (graphIdx labels input) (fun al => al ++ [k]) adj)
      (rs1.foldl
        (fun adj recipe => recipe.inputs.foldl
          (fun adj input => updAt (graphIdx labels input) (fun al => al ++ [k]) adj)
          adj)
        adj)).length = labels.length := by
    rw [inputs_fold_length, recipes_fold_length, hlen]
  rw [getD_updAt_self _ _ _ _ (by rw [hlen2]; exact hq)]
  exact List.mem_append_right _ (List.mem_singleton.mpr rfl)

/-- Processing a list of artifact indices containing `k` records `k` in the
adjacency of each input of each of its recipes. -/
theorem mem_artifacts_fold (reg : IndexRegistry) (labels : List String)
    {k : Nat} {r : IndexRecipe} {inp : String}
    (hr : r ∈ (reg.getArt (labels.getD k "")).recipes)
    (hinp : inp ∈ r.inputs)
    (hq : graphIdx labels inp < labels.length) :
    ∀ (l : List Nat) (adj : List (List Nat)), adj.length = labels.length → k ∈ l →
      k ∈ (l.foldl
        (fun adj i => ((reg.getArt (labels.getD i "")).recipes).foldl
          (fun adj recipe => recipe.inputs.foldl
            (fun adj input => updAt (graphIdx labels input) (fun al => al ++ [i]) adj)
            adj)
          adj)
        adj).getD (graphIdx labels inp) [] := by
  intro l
  induction l with
  | nil => intro adj _ hk; cases hk
  | cons a t ih =>
    intro adj hlen hk
    rw [List.foldl_cons]
    by_cases hak : a = k
    · subst hak
      exact mem_outer_fold reg labels t _
        (mem_after_artifact reg labels hr hinp hq adj hlen)
    · refine ih _ ?_ ?_
      · rw [recipes_fold_length, hlen]
      · rcases List.mem_cons.mp hk with h1 | h1
        · exact absurd h1.symm hak
        · exact h1

/-- Every recipe of artifact `k` puts `k` into the adjacency list of each of
its inputs within the built graph. -/
theorem mem_buildGraph (reg : IndexRegistry) (labels : List String)
    {k : Nat} {r : IndexRecipe} {inp : String}
    (hk : k < labels.length)
    (hr : r ∈ (reg.getArt (labels.getD k "")).recipes)
    (hinp : inp ∈ r.inputs)
    (hq : graphIdx labels inp < labels.length) :
    k ∈ (buildGraph reg labels).getD (graphIdx labels inp) [] := by
  unfold buildGraph
  exact mem_artifacts_fold reg labels hr hinp hq (List.range labels.length) _
    (by rw [List.length_replicate]) (List.mem_range.mpr hk)

/-- A looked-up identifier is the identifier of a registry member. -/
theorem getArt_mem_of_ids {reg : IndexRegistry} {s : String} (h : s ∈ reg.ids) :
    reg.getArt s ∈ reg.registry ∧ (reg.getArt s).identifier = s := by
  unfold IndexRegistry.ids at h
  unfold IndexRegistry.getArt IndexRegistry.findArt
  cases hf : reg.registry.find? (fun f => f.identifier == s) with
  | none =>
    exfalso
    rcases List.mem_map.mp h with ⟨f, hfm, hfe⟩
    have hne := List.find?_eq_none.mp hf f hfm
    simp [hfe] at hne
  | some g =>
    refine ⟨List.mem_of_find?_eq_some hf, ?_⟩
    have hg := List.find?_some hf
    simpa using hg

/-- A recipe turns into an edge of the deduplicated adjacency: the output
vertex is listed among the successors of each input vertex, so the input is a
predecessor of the output. -/
theorem isPred_of_edge {reg : IndexRegistry}
    {out inp : String} (hout : out ∈ reg.ids) (hinp2 : inp ∈ reg.ids)
    {r : IndexRecipe} (hr : r ∈ (reg.getArt out).recipes) (hinp : inp ∈ r.inputs) :
    isPred (depAdj reg) (graphIdx reg.ids out) (graphIdx reg.ids inp) = true := by
  obtain ⟨hkq, hkget⟩ := graphIdx_mem hout
  obtain ⟨hq, _⟩ := graphIdx_mem hinp2
  have hbg : graphIdx reg.ids out ∈
      (buildGraph reg reg.ids).getD (graphIdx reg.ids inp) [] := by
    refine mem_buildGraph reg reg.ids hkq ?_ hinp hq
    rw [hkget]
    exact hr
  have hlen := buildGraph_length reg reg.ids
  unfold isPred
  rw [decide_eq_true_eq]
  unfold depAdj
  rw [List.getD_eq_getElem _ _ (by rw [List.length_map, hlen]; exact hq),
    List.getElem_map, mem_dedupSorted, mem_sortNat,
    ← List.getD_eq_getElem (buildGraph reg reg.ids) [] (by rw [hlen]; exact hq)]
  exact hbg

/-- `i` occurs strictly before `j` in the vertex order. -/
def ordBefore (korder : List Nat) (i j : Nat) : Prop :=
  ∃ q1 q2, q1 < q2 ∧ q2 < korder.length ∧
    korder.getD q1 0 = i ∧ korder.getD q2 0 = j

/-- In a duplicate-free order, `ordBefore` is transitive. -/
theorem ordBefore_trans {korder : List Nat} (hnd : korder.Nodup) {i j k : Nat}
    (h1 : ordBefore korder i j) (h2 : ordBefore korder j k) :
    ordBefore korder i k := by
  rcases h1 with ⟨q1, q2, h12, h2l, hg1, hg2⟩
  rcases h2 with ⟨q3, q4, h34, h4l, hg3, hg4⟩
  have h3l : q3 < korder.length := lt_trans h34 h4l
  have heq : q2 = q3 := by
    refine (@List.Nodup.getElem_inj_iff _ korder hnd q2 h2l q3 h3l).mp ?_
    rw [← List.getD_eq_getElem korder 0 h2l, ← List.getD_eq_getElem korder 0 h3l,
      hg2, hg3]
  refine ⟨q1, q4, ?_, h4l, hg1, hg4⟩
  omega

/-- In a duplicate-free order, `ordBefore` is irreflexive. -/
theorem ordBefore_irrefl {korder : List Nat} (hnd : korder.Nodup) {i : Nat}
    (h : ordBefore korder i i) : False := by
  rcases h with ⟨q1, q2, h12, h2l, hg1, hg2⟩
  have h1l : q1 < korder.length := lt_trans h12 h2l
  have heq : q1 = q2 := by
    refine (@List.Nodup.getElem_inj_iff _ korder hnd q1 h1l q2 h2l).mp ?_
    rw [← List.getD_eq_getElem korder 0 h1l, ← List.getD_eq_getElem korder 0 h2l,
      hg1, hg2]
  omega

/-- When the order was returned successfully, every graph edge runs forward in
the emitted vertex order. -/
theorem topo_ordBefore {reg : IndexRegistry} {order : List String}
    (hok : reg.dependency_order = .ok order) {i j : Nat}
    (hi : i < reg.ids.length) (hj : j < reg.ids.length)
    (hedge : isPred (depAdj reg) j i = true) :
    ordBefore (depKahnOrder reg) i j := by
  rcases dependency_order_ok hok with ⟨_, hlen, _, _, htopo, hperm⟩
  have hjmem : j ∈ depKahnOrder reg := hperm.mem_iff.mpr (List.mem_range.mpr hj)
  rcases List.getElem_of_mem hjmem with ⟨q2, hq2, hq2e⟩
  have hq2d : (depKahnOrder reg).getD q2 0 = j := by
    rw [List.getD_eq_getElem _ _ hq2, hq2e]
  have hin := htopo q2 hq2 i hi (by rw [hq2d]; exact hedge)
  rcases List.getElem_of_mem hin with ⟨q1, hq1, hq1e⟩
  have hq1lt : q1 < q2 := by
    have := List.length_take q2 (depKahnOrder reg)
    omega
  have hq1l : q1 < (depKahnOrder reg).length := lt_trans hq1lt hq2
  refine ⟨q1, q2, hq1lt, hq2, ?_, hq2d⟩
  rw [List.getD_eq_getElem _ _ hq1l, ← List.getElem_take (depKahnOrder reg), hq1e]

/-- The artifact-recipe edge relation of the graph built at lines 822-831:
`inp` is an input of some recipe of the registered artifact `out`. -/
def dependsEdge (reg : IndexRegistry) (inp out : String) : Prop :=
  out ∈ reg.ids ∧ ∃ r ∈ (reg.getArt out).recipes, inp ∈ r.inputs

/-- A chain of recipe edges runs forward in a successfully emitted vertex
order. -/
theorem transGen_ordBefore {reg : IndexRegistry} {order : List String}
    (hok : reg.dependency_order = .ok order)
    (hwf : ∀ f ∈ reg.registry, ∀ r ∈ f.recipes, ∀ inp ∈ r.inputs, inp ∈ reg.ids)
    {x y : String} (htg : Relation.TransGen (dependsEdge reg) x y) :
    ordBefore (depKahnOrder reg) (graphIdx reg.ids x) (graphIdx reg.ids y) := by
  have hnd : (depKahnOrder reg).Nodup := (dependency_order_ok hok).2.2.1
  have hstep : ∀ u v : String, dependsEdge reg u v →
      ordBefore (depKahnOrder reg) (graphIdx reg.ids u) (graphIdx reg.ids v) := by
    intro u v hedge
    rcases hedge with ⟨hv, r, hr, hu⟩
    rcases getArt_mem_of_ids hv with ⟨hmem, hid⟩
    have huids : u ∈ reg.ids := hwf _ hmem r hr u hu
    refine topo_ordBefore hok (graphIdx_mem huids).1 (graphIdx_mem hv).1 ?_
    exact isPred_of_edge hv huids hr hu
  induction htg with
  | single h => exact hstep _ _ h
  | tail _ h ih => exact ordBefore_trans hnd ih (hstep _ _ h)

/-- C5: for a duplicate-free registry whose recipe inputs are all registered,
`dependency_order` returns a permutation of all registered artifact
identifiers in which, for every registered recipe, each of the recipe's input
artifacts precedes the recipe's output artifact; and if the artifact-recipe
graph contains a cycle, `dependency_order` terminates fatally instead of
returning an order. -/
theorem C5_dependency_order_correct (reg : IndexRegistry)
    (hnd : reg.ids.Nodup)
    (hwf : ∀ f ∈ reg.registry, ∀ r ∈ f.recipes, ∀ inp ∈ r.inputs, inp ∈ reg.ids) :
    (∀ order, reg.dependency_order = .ok order →
      order.Perm reg.ids ∧
      ∀ f ∈ reg.registry, ∀ r ∈ f.recipes, ∀ inp ∈ r.inputs,
        ∃ q1 q2, q1 < q2 ∧ q2 < order.length ∧
          order.getD q1 "" = inp ∧ order.getD q2 "" = f.identifier) ∧
    ((∃ a, Relation.TransGen (dependsEdge reg) a a) →
      reg.dependency_order = .error (.fatal "index dependency graph is not a DAG")) := by
  constructor
  · intro order hok
    refine ⟨dependency_order_perm hok, ?_⟩
    intro f hf r hr inp hinp
    rcases dependency_order_ok hok with ⟨heq, hlen, _, hbound, _, _⟩
    have hfid : f.identifier ∈ reg.ids := List.mem_map_of_mem _ hf
    have hinpids : inp ∈ reg.ids := hwf f hf r hr inp hinp
    have hr2 : r ∈ (reg.getArt f.identifier).recipes := by
      rw [getArt_of_mem hnd hf]
      exact hr
    have hedge := isPred_of_edge hfid hinpids hr2 hinp
    have hbefore := topo_ordBefore hok (graphIdx_mem hinpids).1 (graphIdx_mem hfid).1 hedge
    rcases hbefore with ⟨q1, q2, h12, h2l, hg1, hg2⟩
    have h1l : q1 < (depKahnOrder reg).length := lt_trans h12 h2l
    have hmg : ∀ q, q < (depKahnOrder reg).length →
        order.getD q "" = reg.ids.getD ((depKahnOrder reg).getD q 0) "" := by
      intro q hq
      rw [heq, List.getD_eq_getElem _ _ (by rw [List.length_map]; exact hq),
        List.getElem_map, List.getD_eq_getElem _ _ hq]
    refine ⟨q1, q2, h12, ?_, ?_, ?_⟩
    · rw [heq, List.length_map]
      exact h2l
    · rw [hmg q1 h1l, hg1]
      exact (graphIdx_mem hinpids).2
    · rw [hmg q2 h2l, hg2]
      exact (graphIdx_mem hfid).2
  · intro hcyc
    rcases hcyc with ⟨a, htg⟩
    cases hres : reg.dependency_order with
    | error e =>
      revert hres
      unfold IndexRegistry.dependency_order
      intro hres
      split at hres
      · cases hres
        rfl
      · cases hres
    | ok order =>
      exfalso
      have hko : (depKahnOrder reg).Nodup := (dependency_order_ok hres).2.2.1
      exact ordBefore_irrefl hko (transGen_ordBefore hres hwf htg)

/-- Witness: applied to the provided chain `A → B → C` the order is the
permutation `[A, B, C]` of the identifiers placing inputs first, and applied
to the two-cycle registry the computation ends in the fatal DAG error. -/
theorem C5_witness :
    (["A", "B", "C"] : List String).Perm regChain.ids ∧
    regCycle.dependency_order = .error (.fatal "index dependency graph is not a DAG") :=
  ⟨((C5_dependency_order_correct regChain (by decide) (by decide)).1
      ["A", "B", "C"] rfl).1,
    (C5_dependency_order_correct regCycle (by decide) (by decide)).2
      ⟨"A", Relation.TransGen.tail
        (Relation.TransGen.single
          (show dependsEdge regCycle "A" "B" by unfold dependsEdge; decide))
        (show dependsEdge regCycle "B" "A" by unfold dependsEdge; decide)⟩⟩

/-- A successful identifier search returns an in-range position. -/
theorem findIdx?_lt {s : String} :
    ∀ (l : List String) (k : Nat), l.findIdx? (fun x => x == s) = some k →
      k < l.length := by
  intro l
  induction l with
  | nil => intro k h; cases h
  | cons a t ih =>
    intro k h
    rw [List.findIdx?_cons] at h
    by_cases ha : (a == s) = true
    · rw [if_pos ha] at h
      cases h
      exact Nat.succ_pos _
    · rw [if_neg ha] at h
      simp only [List.findIdx?_succ, Option.map_eq_some'] at h
      rcases h with ⟨k0, hk0, rfl⟩
      have := ih k0 hk0
      simpa using this

/-- The dependency position of any identifier is in range once the order is
nonempty (an unknown identifier is value-initialised to position 0). -/
theorem depOrderOf_lt {order : List String} (h : order ≠ []) (s : String) :
    depOrderOf order s < order.length := by
  unfold depOrderOf
  cases hf : order.findIdx? (fun x => x == s) with
  | none =>
    have : 0 < order.length := List.length_pos_iff_ne_nil.mpr h
    simpa using this
  | some k => simpa using findIdx?_lt order k hf

/-- The dependency position of a listed identifier reads back the identifier. -/
theorem depOrderOf_roundtrip {order : List String} {s : String} (h : s ∈ order) :
    depOrderOf order s < order.length ∧ order.getD (depOrderOf order s) "" = s := by
  rcases findIdx?_mem order h with ⟨k, hfind, hk, hget⟩
  unfold depOrderOf
  rw [hfind]
  exact ⟨hk, hget⟩

/-- In a registry without the empty identifier, the blank fallback record is
unfinished. -/
theorem getArt_empty_not_finished {reg : IndexRegistry} (h : "" ∉ reg.ids) :
    (reg.getArt "").is_finished = false := by
  unfold IndexRegistry.getArt IndexRegistry.findArt
  cases hf : reg.registry.find? (fun f => f.identifier == "") with
  | none => rfl
  | some g =>
    exfalso
    have hg1 := List.mem_of_find?_eq_some hf
    have hg2 := List.find?_some hf
    have hgid : g.identifier = "" := by simpa using hg2
    exact h (hgid ▸ List.mem_map_of_mem _ hg1)

/-- Membership in the descending-queue insertion. -/
theorem mem_qInsert {e' e : QEntry} :
    ∀ l : List QEntry, e' ∈ qInsert e l ↔ e' = e ∨ e' ∈ l := by
  intro l
  induction l with
  | nil => simp [qInsert]
  | cons q t ih =>
    rw [qInsert]
    by_cases hq : q.1 < e.1
    · rw [if_pos hq]
      simp
    · rw [if_neg hq]
      rw [List.mem_cons, ih, List.mem_cons]
      tauto

/-- Every entry of the enqueue result either descends from an existing entry
(same position and first requester) or is a fresh entry for one of the
enqueued inputs with the given requester. -/
theorem mem_enqueueInputs {order : List String} {req : Nat} {e : QEntry} :
    ∀ (inputs : List String) (queue : List QEntry),
      e ∈ enqueueInputs order req inputs queue →
      (∃ e0 ∈ queue, e.1 = e0.1 ∧ e.2.1 = e0.2.1) ∨
      (∃ inp ∈ inputs, e.1 = depOrderOf order inp ∧ e.2.1 = req) := by
  intro inputs
  induction inputs with
  | nil =>
    intro queue h
    exact Or.inl ⟨e, h, rfl, rfl⟩
  | cons a t ih =>
    intro queue h
    unfold enqueueInputs at h ih
    rw [List.foldl_cons] at h
    rcases ih _ h with ⟨e0, he0, hpos, hreq⟩ | ⟨inp, hinp, hpos, hreq⟩
    · by_cases hany : (queue.any (fun e => e.1 = depOrderOf order a)) = true
      · rw [if_pos hany] at he0
        rcases List.mem_map.mp he0 with ⟨e1, he1, he1e⟩
        by_cases h1 : e1.1 = depOrderOf order a
        · rw [if_pos h1] at he1e
          exact Or.inl ⟨e1, he1, by rw [hpos, ← he1e], by rw [hreq, ← he1e]⟩
        · rw [if_neg h1] at he1e
          exact Or.inl ⟨e1, he1, by rw [hpos, he1e], by rw [hreq, he1e]⟩
      · rw [if_neg hany] at he0
        rcases (mem_qInsert queue).mp he0 with he0e | he0q
        · refine Or.inr ⟨a, List.mem_cons_self a t, ?_, ?_⟩
          · rw [hpos, he0e]
          · rw [hreq, he0e]
        · exact Or.inl ⟨e0, he0q, hpos, hreq⟩
    · exact Or.inr ⟨inp, List.mem_cons_of_mem a hinp, hpos, hreq⟩

/-- Every entry surviving one input's requester decrement descends from an
entry of the queue with the same position and first requester. -/
theorem mem_decrementStep {d : Nat} {e : QEntry} :
    ∀ queue : List QEntry,
      e ∈ queue.foldr
        (fun e acc =>
          if e.1 = d then
            if e.2.2 - 1 = 0 then acc else (e.1, e.2.1, e.2.2 - 1) :: acc
          else e :: acc)
        [] →
      ∃ e0 ∈ queue, e.1 = e0.1 ∧ e.2.1 = e0.2.1 := by
  intro queue
  induction queue with
  | nil => intro h; cases h
  | cons q qt ihq =>
    intro h
    rw [List.foldr_cons] at h
    by_cases hq : q.1 = d
    · rw [if_pos hq] at h
      by_cases hz : q.2.2 - 1 = 0
      · rw [if_pos hz] at h
        rcases ihq h with ⟨e1, he1, h1, h2⟩
        exact ⟨e1, List.mem_cons_of_mem q he1, h1, h2⟩
      · rw [if_neg hz] at h
        rcases List.mem_cons.mp h with he | he
        · exact ⟨q, List.mem_cons_self q qt, by rw [he], by rw [he]⟩
        · rcases ihq he with ⟨e1, he1, h1, h2⟩
          exact ⟨e1, List.mem_cons_of_mem q he1, h1, h2⟩
    · rw [if_neg hq] at h
      rcases List.mem_cons.mp h with he | he
      · exact ⟨q, List.mem_cons_self q qt, by rw [he], by rw [he]⟩
      · rcases ihq he with ⟨e1, he1, h1, h2⟩
        exact ⟨e1, List.mem_cons_of_mem q he1, h1, h2⟩

/-- Every entry surviving a requester decrement descends from an existing
entry with the same position and first requester. -/
theorem mem_decrementInputs {order : List String} {e : QEntry} :
    ∀ (inputs : List String) (queue : List QEntry),
      e ∈ decrementInputs order inputs queue →
      ∃ e0 ∈ queue, e.1 = e0.1 ∧ e.2.1 = e0.2.1 := by
  intro inputs
  induction inputs with
  | nil =>
    intro queue h
    exact ⟨e, h, rfl, rfl⟩
  | cons a t ih =>
    intro queue h
    unfold decrementInputs at h ih
    rw [List.foldl_cons] at h
    rcases ih _ h with ⟨e0, he0, hpos, hreq⟩
    rcases mem_decrementStep queue he0 with ⟨e1, he1, h1, h2⟩
    exact ⟨e1, he1, hpos.trans h1, hreq.trans h2⟩

/-- Every entry surviving a release descends from an existing entry with the
same position and first requester. -/
theorem mem_releaseEntry {reg : IndexRegistry} {order : List String}
    {pe : PEntry} {e : QEntry} {queue : List QEntry}
    (h : e ∈ releaseEntry reg order pe queue) :
    ∃ e0 ∈ queue, e.1 = e0.1 ∧ e.2.1 = e0.2.1 := by
  simp only [releaseEntry] at h
  split at h
  · exact mem_decrementInputs _ _ h
  · exact ⟨e, h, rfl, rfl⟩

/-- The run invariant protecting a target `posT` whose front recipe is
satisfied: queue entries never have a finished first requester, entries first
requested by `posT` sit at finished positions, and plan-path records mirror
both facts, keep `posT` records at recipe index 0, and stay in range. -/
structure C2Inv (reg : IndexRegistry) (order : List String) (posT : Nat)
    (queue : List QEntry) (path : List PEntry) : Prop where
  qreq : ∀ e ∈ queue, (artAt reg order e.2.1).is_finished = false
  qreqT : ∀ e ∈ queue, e.2.1 = posT → (artAt reg order e.1).is_finished = true
  qpos : ∀ e ∈ queue, e.1 < order.length
  preq : ∀ rec ∈ path, (artAt reg order rec.2.1).is_finished = false
  preqT : ∀ rec ∈ path, rec.2.1 = posT → (artAt reg order rec.1).is_finished = true
  pposT : ∀ rec ∈ path, rec.1 = posT → rec.2.2 = 0
  ppos : ∀ rec ∈ path, rec.1 < order.length

/-- The invariant survives any queue transformation that preserves positions
and first requesters entrywise. -/
theorem C2Inv_qtrans {reg : IndexRegistry} {order : List String} {posT : Nat}
    {queue queue2 : List QEntry} {path : List PEntry}
    (h : C2Inv reg order posT queue path)
    (hq : ∀ e ∈ queue2, ∃ e0 ∈ queue, e.1 = e0.1 ∧ e.2.1 = e0.2.1) :
    C2Inv reg order posT queue2 path := by
  refine ⟨?_, ?_, ?_, h.preq, h.preqT, h.pposT, h.ppos⟩
  · intro e he
    rcases hq e he with ⟨e0, he0, _, hr⟩
    rw [hr]
    exact h.qreq e0 he0
  · intro e he hT
    rcases hq e he with ⟨e0, he0, hp, hr⟩
    rw [hp]
    exact h.qreqT e0 he0 (by rw [← hr, hT])
  · intro e he
    rcases hq e he with ⟨e0, he0, hp, _⟩
    rw [hp]
    exact h.qpos e0 he0

/-- The invariant survives cutting the plan path to a suffix. -/
theorem C2Inv_suffix {reg : IndexRegistry} {order : List String} {posT : Nat}
    {queue : List QEntry} {path path2 : List PEntry}
    (h : C2Inv reg order posT queue path) (hs : List.IsSuffix path2 path) :
    C2Inv reg order posT queue path2 := by
  have hsub := hs.subset
  exact ⟨h.qreq, h.qreqT, h.qpos,
    fun rec hr => h.preq rec (hsub hr),
    fun rec hr => h.preqT rec (hsub hr),
    fun rec hr => h.pposT rec (hsub hr),
    fun rec hr => h.ppos rec (hsub hr)⟩

/-- The invariant survives changing the recipe index of a head record that is
not at the protected position. -/
theorem C2Inv_bump {reg : IndexRegistry} {order : List String} {posT : Nat}
    {queue : List QEntry} {p2 r2 idx2 idx3 : Nat} {path2 : List PEntry}
    (h : C2Inv reg order posT queue ((p2, r2, idx2) :: path2))
    (hne : p2 ≠ posT) :
    C2Inv reg order posT queue ((p2, r2, idx3) :: path2) := by
  refine ⟨h.qreq, h.qreqT, h.qpos, ?_, ?_, ?_, ?_⟩
  · intro rec hr
    rcases List.mem_cons.mp hr with he | he
    · rw [he]
      exact h.preq (p2, r2, idx2) (List.mem_cons_self _ _)
    · exact h.preq rec (List.mem_cons_of_mem _ he)
  · intro rec hr
    rcases List.mem_cons.mp hr with he | he
    · rw [he]
      exact h.preqT (p2, r2, idx2) (List.mem_cons_self _ _)
    · exact h.preqT rec (List.mem_cons_of_mem _ he)
  · intro rec hr
    rcases List.mem_cons.mp hr with he | he
    · rw [he]
      intro hp
      exact absurd hp hne
    · exact h.pposT rec (List.mem_cons_of_mem _ he)
  · intro rec hr
    rcases List.mem_cons.mp hr with he | he
    · rw [he]
      exact h.ppos (p2, r2, idx2) (List.mem_cons_self _ _)
    · exact h.ppos rec (List.mem_cons_of_mem _ he)

/-- The invariant survives an enqueue whose requester is unfinished and, when
it is the protected position, only enqueues finished inputs. -/
theorem C2Inv_enqueue {reg : IndexRegistry} {order : List String} {posT : Nat}
    {queue : List QEntry} {path : List PEntry} {req : Nat} {inputs : List String}
    (h : C2Inv reg order posT queue path) (hne : order ≠ [])
    (hreqF : (artAt reg order req).is_finished = false)
    (hreqT : req = posT → ∀ inp ∈ inputs,
      (artAt reg order (depOrderOf order inp)).is_finished = true) :
    C2Inv reg order posT (enqueueInputs order req inputs queue) path := by
  refine ⟨?_, ?_, ?_, h.preq, h.preqT, h.pposT, h.ppos⟩
  · intro e he
    rcases mem_enqueueInputs inputs queue he with ⟨e0, he0, _, hr⟩ | ⟨inp, _, _, hr⟩
    · rw [hr]
      exact h.qreq e0 he0
    · rw [hr]
      exact hreqF
  · intro e he hT
    rcases mem_enqueueInputs inputs queue he with ⟨e0, he0, hp, hr⟩ | ⟨inp, hinp, hp, hr⟩
    · rw [hp]
      exact h.qreqT e0 he0 (by rw [← hr, hT])
    · rw [hp]
      exact hreqT (by rw [← hr, hT]) inp hinp
  · intro e he
    rcases mem_enqueueInputs inputs queue he with ⟨e0, he0, hp, _⟩ | ⟨inp, _, hp, _⟩
    · rw [hp]
      exact h.qpos e0 he0
    · rw [hp]
      exact depOrderOf_lt hne inp

/-- The unwinding loop transforms the queue entrywise, returns a suffix of the
plan path, and stops exactly at the requested position. -/
theorem popToRequester_spec (reg : IndexRegistry) (order : List String) (r : Nat) :
    ∀ (path : List PEntry) (queue : List QEntry),
      (∀ e ∈ (popToRequester reg order r queue path).1,
        ∃ e0 ∈ queue, e.1 = e0.1 ∧ e.2.1 = e0.2.1) ∧
      List.IsSuffix (popToRequester reg order r queue path).2 path ∧
      (∀ p2 r2 i2 rest, (popToRequester reg order r queue path).2 = (p2, r2, i2) :: rest →
        p2 = r) := by
  intro path
  induction path with
  | nil =>
    intro queue
    rw [popToRequester]
    exact ⟨fun e he => ⟨e, he, rfl, rfl⟩, List.nil_suffix,
      fun p2 r2 i2 rest h => by cases h⟩
  | cons e path ih =>
    intro queue
    rw [popToRequester]
    by_cases hr : e.1 = r
    · rw [if_pos hr]
      refine ⟨fun e2 he2 => ⟨e2, he2, rfl, rfl⟩, List.suffix_refl _, ?_⟩
      intro p2 r2 i2 rest h
      rw [← hr]
      rw [List.cons.injEq] at h
      rw [h.1]
    · rw [if_neg hr]
      rcases ih (releaseEntry reg order e queue) with ⟨hq, hs, hh⟩
      refine ⟨?_, hs.trans (List.suffix_cons e path), hh⟩
      intro e2 he2
      rcases hq e2 he2 with ⟨e0, he0, hp, hreq⟩
      rcases mem_releaseEntry he0 with ⟨e1, he1, hp1, hr1⟩
      exact ⟨e1, he1, hp.trans hp1, hreq.trans hr1⟩

/-- The backtracking loop preserves the run invariant, and leaves a plan path
whose head is an unfinished artifact away from the protected position. -/
theorem backtrack_inv (reg : IndexRegistry) (order : List String) (posT : Nat) :
    ∀ (fuel : Nat) (queue : List QEntry) (path : List PEntry)
      (queue1 : List QEntry) (path1 : List PEntry),
      C2Inv reg order posT queue path →
      (∀ p r i rest, path = (p, r, i) :: rest →
        (artAt reg order p).is_finished = false ∧ p ≠ posT) →
      backtrack reg order fuel queue path = some (queue1, path1) →
      C2Inv reg order posT queue1 path1 ∧
      (∀ p r i rest, path1 = (p, r, i) :: rest →
        (artAt reg order p).is_finished = false ∧ p ≠ posT) := by
  intro fuel
  induction fuel with
  | zero =>
    intro queue path q1 p1 _ _ h
    cases h
  | succ fuel ih =>
    intro queue path q1 p1 hinv hhead h
    match path, hhead, h with
    | [], _, h =>
      rw [backtrack] at h
      cases h
      refine ⟨⟨hinv.qreq, hinv.qreqT, hinv.qpos, ?_, ?_, ?_, ?_⟩, ?_⟩
      · intro rec hr
        cases hr
      · intro rec hr
        cases hr
      · intro rec hr
        cases hr
      · intro rec hr
        cases hr
      · intro p2 r2 i2 rest h2
        cases h2
    | (p, r, idx) :: rest, hhead, h =>
      rw [backtrack] at h
      by_cases hex : idx = (artAt reg order p).recipes.length
      · rw [if_pos hex] at h
        have hspec := popToRequester_spec reg order r ((p, r, idx) :: rest) queue
        rcases hpop : popToRequester reg order r queue ((p, r, idx) :: rest)
          with ⟨queue2, path2t⟩
        rw [hpop] at hspec h
        obtain ⟨hq, hs, hh⟩ := hspec
        match path2t, h, hq, hs, hh with
        | [], h, hq, _, _ =>
          cases h
          refine ⟨⟨?_, ?_, ?_, ?_, ?_, ?_, ?_⟩, ?_⟩
          · exact (C2Inv_qtrans hinv hq).qreq
          · exact (C2Inv_qtrans hinv hq).qreqT
          · exact (C2Inv_qtrans hinv hq).qpos
          · intro rec hr
            cases hr
          · intro rec hr
            cases hr
          · intro rec hr
            cases hr
          · intro rec hr
            cases hr
          · intro p2 r2 i2 rest2 h2
            cases h2
        | (p2, r2, idx2) :: path2, h, hq, hs, hh =>
          have hp2 : p2 = r := hh p2 r2 idx2 path2 rfl
          have hrec : (p, r, idx) ∈ (p, r, idx) :: rest := List.mem_cons_self _ _
          have hrF : (artAt reg order r).is_finished = false := hinv.preq _ hrec
          have hrT : r ≠ posT := by
            intro he
            have hfin := hinv.preqT _ hrec he
            rcases hhead p r idx rest rfl with ⟨hf, _⟩
            rw [hf] at hfin
            cases hfin
          have hinv2 : C2Inv reg order posT queue2 ((p2, r2, idx2) :: path2) :=
            C2Inv_suffix (C2Inv_qtrans hinv hq) hs
          have hinv2r : C2Inv reg order posT
              (releaseEntry reg order (p2, r2, idx2) queue2)
              ((p2, r2, idx2) :: path2) :=
            C2Inv_qtrans hinv2 (fun e he => mem_releaseEntry he)
          have hinv3 : C2Inv reg order posT
              (releaseEntry reg order (p2, r2, idx2) queue2)
              ((p2, r2, idx2 + 1) :: path2) :=
            C2Inv_bump hinv2r (by rw [hp2]; exact hrT)
          refine ih _ _ _ _ hinv3 ?_ h
          intro p3 r3 i3 rest3 he
          rw [List.cons.injEq] at he
          obtain ⟨he1, -⟩ := he
          injection he1 with h1 h2
          rw [← h1, hp2]
          exact ⟨hrF, hrT⟩
      · rw [if_neg hex] at h
        cases h
        exact ⟨hinv, hhead⟩

/-- The planning loop preserves the run invariant: when the protected
position has recipes and its front recipe's inputs are all finished, every
record of the returned plan path is in range, and any record at the protected
position carries recipe index 0. -/
theorem planLoop_inv (reg : IndexRegistry) (order : List String) (posT : Nat)
    (hne : order ≠ [])
    (hTrecipes : (artAt reg order posT).recipes ≠ [])
    (hTinputs : ∀ inp ∈ ((artAt reg order posT).recipes.getD 0
        ⟨[], fun _ _ _ => []⟩).inputs,
      (artAt reg order (depOrderOf order inp)).is_finished = true) :
    ∀ (fuel : Nat) (queue : List QEntry) (path res : List PEntry),
      C2Inv reg order posT queue path →
      planLoop reg order fuel queue path = .ok res →
      ∀ rec ∈ res, (rec.1 = posT → rec.2.2 = 0) ∧ rec.1 < order.length := by
  intro fuel
  induction fuel with
  | zero =>
    intro queue path res _ h
    cases h
  | succ fuel ih =>
    intro queue path res hinv h
    match queue, hinv, h with
    | [], hinv, h =>
      cases h
      intro rec hr
      exact ⟨hinv.pposT rec hr, hinv.ppos rec hr⟩
    | (p, r, c) :: qrest, hinv, h =>
      have hinv1 : C2Inv reg order posT qrest ((p, r, 0) :: path) := by
        refine ⟨fun e he => hinv.qreq e (List.mem_cons_of_mem _ he),
          fun e he => hinv.qreqT e (List.mem_cons_of_mem _ he),
          fun e he => hinv.qpos e (List.mem_cons_of_mem _ he), ?_, ?_, ?_, ?_⟩
        · intro rec hr
          rcases List.mem_cons.mp hr with he | he
          · rw [he]
            exact hinv.qreq (p, r, c) (List.mem_cons_self _ _)
          · exact hinv.preq rec he
        · intro rec hr
          rcases List.mem_cons.mp hr with he | he
          · rw [he]
            exact hinv.qreqT (p, r, c) (List.mem_cons_self _ _)
          · exact hinv.preqT rec he
        · intro rec hr
          rcases List.mem_cons.mp hr with he | he
          · rw [he]
            intro _
            rfl
          · exact hinv.pposT rec he
        · intro rec hr
          rcases List.mem_cons.mp hr with he | he
          · rw [he]
            exact hinv.qpos (p, r, c) (List.mem_cons_self _ _)
          · exact hinv.ppos rec he
      simp only [planLoop] at h
      split at h
      · exact ih _ _ _ hinv1 h
      · rename_i hfin
        rw [Bool.not_eq_true] at hfin
        split at h
        · rename_i hrecne
          refine ih _ _ _ (C2Inv_enqueue hinv1 hne hfin ?_) h
          intro hpT inp hinp
          refine hTinputs inp ?_
          rw [hpT] at hinp
          exact hinp
        · rename_i hrecem
          have hrecnil : (artAt reg order p).recipes = [] := by
            have hb : (artAt reg order p).recipes.isEmpty = true := by
              cases hb2 : (artAt reg order p).recipes.isEmpty with
              | false => exact absurd hb2 hrecem
              | true => rfl
            exact List.isEmpty_iff.mp hb
          have hpT : p ≠ posT := by
            intro he
            rw [← he, hrecnil] at hTrecipes
            exact hTrecipes rfl
          have hhead : ∀ p3 r3 i3 rest3, ((p, r, 0) :: path) = (p3, r3, i3) :: rest3 →
              (artAt reg order p3).is_finished = false ∧ p3 ≠ posT := by
            intro p3 r3 i3 rest3 he
            rw [List.cons.injEq] at he
            obtain ⟨he1, -⟩ := he
            injection he1 with h1 h2
            rw [← h1]
            exact ⟨hfin, hpT⟩
          split at h
          · cases h
          · rename_i queue1 heq
            rcases backtrack_inv reg order posT _ _ _ _ _ hinv1 hhead heq
              with ⟨hinvB, -⟩
            exact ih _ _ _ hinvB h
          · rename_i queue1 p2 r2 idx2 path2 heq
            rcases backtrack_inv reg order posT _ _ _ _ _ hinv1 hhead heq
              with ⟨hinvB, hheadB⟩
            obtain ⟨hp2F, hp2T⟩ := hheadB p2 r2 idx2 path2 rfl
            refine ih _ _ _ (C2Inv_enqueue hinvB hne hp2F ?_) h
            intro hpe
            exact absurd hpe hp2T

/-- When every queued position is already finished the loop drains the queue,
pushing one index-0 record per entry on top of the existing path. -/
theorem planLoop_drain (reg : IndexRegistry) (order : List String) :
    ∀ (fuel : Nat) (queue : List QEntry) (path res : List PEntry),
      (∀ e ∈ queue, (artAt reg order e.1).is_finished = true) →
      planLoop reg order fuel queue path = .ok res →
      ∃ pre, res = pre ++ path := by
  intro fuel
  induction fuel with
  | zero =>
    intro queue path res _ h
    cases h
  | succ fuel ih =>
    intro queue path res hfin h
    match queue, h with
    | [], h =>
      cases h
      exact ⟨[], rfl⟩
    | (p, r, c) :: qrest, h =>
      simp only [planLoop] at h
      rw [if_pos (hfin (p, r, c) (List.mem_cons_self _ _))] at h
      rcases ih qrest ((p, r, 0) :: path) res
        (fun e he => hfin e (List.mem_cons_of_mem _ he)) h with ⟨pre, hpre⟩
      refine ⟨pre ++ [(p, r, 0)], ?_⟩
      rw [hpre, List.append_assoc, List.singleton_append]

/-- Membership in the plan-element set insertion. -/
theorem mem_insertElem {l : List (String × Nat)} {x e : String × Nat} :
    x ∈ insertElem l e ↔ x ∈ l ∨ x = e := by
  unfold insertElem
  by_cases hc : l.contains e = true
  · rw [if_pos hc]
    constructor
    · exact Or.inl
    · intro h
      rcases h with h | h
      · exact h
      · rw [h]
        exact List.mem_of_elem_eq_true hc
  · rw [if_neg hc]
    rw [List.mem_append, List.mem_singleton]

/-- Elements already collected survive a path-element fold. -/
theorem foldl_insertElem_subset (order : List String) :
    ∀ (l : List PEntry) (acc : List (String × Nat)) (x : String × Nat),
      x ∈ acc →
      x ∈ l.foldl (fun acc e => insertElem acc (order.getD e.1 "", e.2.2)) acc := by
  intro l
  induction l with
  | nil => intro acc x h; exact h
  | cons a t ih =>
    intro acc x h
    rw [List.foldl_cons]
    exact ih _ x (mem_insertElem.mpr (Or.inl h))

/-- Every walked record contributes its element to a path-element fold. -/
theorem foldl_insertElem_mem (order : List String) :
    ∀ (l : List PEntry) (acc : List (String × Nat)) (e : PEntry),
      e ∈ l →
      (order.getD e.1 "", e.2.2) ∈
        l.foldl (fun acc e => insertElem acc (order.getD e.1 "", e.2.2)) acc := by
  intro l
  induction l with
  | nil => intro acc e h; cases h
  | cons a t ih =>
    intro acc e h
    rw [List.foldl_cons]
    rcases List.mem_cons.mp h with he | he
    · rw [he]
      exact foldl_insertElem_subset order t _ _ (mem_insertElem.mpr (Or.inr rfl))
    · exact ih _ e he

/-- Every element of a path-element fold was already collected or stems from a
walked record. -/
theorem foldl_insertElem_cases (order : List String) :
    ∀ (l : List PEntry) (acc : List (String × Nat)) (x : String × Nat),
      x ∈ l.foldl (fun acc e => insertElem acc (order.getD e.1 "", e.2.2)) acc →
      x ∈ acc ∨ ∃ e ∈ l, x = (order.getD e.1 "", e.2.2) := by
  intro l
  induction l with
  | nil => intro acc x h; exact Or.inl h
  | cons a t ih =>
    intro acc x h
    rw [List.foldl_cons] at h
    rcases ih _ x h with hacc | ⟨e, he, hx⟩
    · rcases mem_insertElem.mp hacc with h1 | h1
      · exact Or.inl h1
      · exact Or.inr ⟨a, List.mem_cons_self a t, h1⟩
    · exact Or.inr ⟨e, List.mem_cons_of_mem a he, hx⟩

/-- Elements already collected survive `pathElems`. -/
theorem pathElems_subset {order : List String} {path : List PEntry}
    {elems : List (String × Nat)} {x : String × Nat} (h : x ∈ elems) :
    x ∈ pathElems order path elems :=
  foldl_insertElem_subset order path.reverse elems x h

/-- Every record of a finished plan path contributes its element. -/
theorem pathElems_mem {order : List String} {path : List PEntry}
    {elems : List (String × Nat)} {rec : PEntry} (h : rec ∈ path) :
    (order.getD rec.1 "", rec.2.2) ∈ pathElems order path elems :=
  foldl_insertElem_mem order path.reverse elems rec (List.mem_reverse.mpr h)

/-- Every collected element stems from the existing set or from a record of
the walked plan path. -/
theorem pathElems_cases {order : List String} {path : List PEntry}
    {elems : List (String × Nat)} {x : String × Nat}
    (h : x ∈ pathElems order path elems) :
    x ∈ elems ∨ ∃ rec ∈ path, x = (order.getD rec.1 "", rec.2.2) := by
  rcases foldl_insertElem_cases order path.reverse elems x h with h1 | ⟨e, he, hx⟩
  · exact Or.inl h1
  · exact Or.inr ⟨e, List.mem_reverse.mp he, hx⟩

/-- Membership in the dependency-position insertion. -/
theorem mem_insertByDep {order : List String} {e x : String × Nat} :
    ∀ l : List (String × Nat), x ∈ insertByDep order e l ↔ x = e ∨ x ∈ l := by
  intro l
  induction l with
  | nil => simp [insertByDep]
  | cons f t ih =>
    rw [insertByDep]
    by_cases hlt : depOrderOf order e.1 < depOrderOf order f.1
    · rw [if_pos hlt]
      simp
    · rw [if_neg hlt]
      rw [List.mem_cons, ih, List.mem_cons]
      tauto

/-- The dependency-position sort preserves membership. -/
theorem mem_sortByDep {order : List String} {x : String × Nat} :
    ∀ l : List (String × Nat), x ∈ sortByDep order l ↔ x ∈ l := by
  intro l
  induction l with
  | nil => simp [sortByDep]
  | cons e t ih =>
    rw [sortByDep, mem_insertByDep, ih, List.mem_cons]

/-- Collected elements survive the remaining product runs. -/
theorem runProducts_mono {fuel : Nat} {reg : IndexRegistry} {order : List String} :
    ∀ (products : List String) (elems out : List (String × Nat)),
      runProducts fuel reg order products elems = .ok out →
      ∀ x ∈ elems, x ∈ out := by
  intro products
  induction products with
  | nil =>
    intro elems out h x hx
    cases h
    exact hx
  | cons a t ih =>
    intro elems out h x hx
    rw [runProducts] at h
    split at h
    · cases h
    · split at h
      · cases h
      · exact ih _ out h x (pathElems_subset hx)

/-- Every aggregated element was already collected or stems from a record of
some product's successful plan path. -/
theorem runProducts_cases {fuel : Nat} {reg : IndexRegistry} {order : List String} :
    ∀ (products : List String) (elems out : List (String × Nat)),
      runProducts fuel reg order products elems = .ok out →
      ∀ x ∈ out, x ∈ elems ∨ ∃ product ∈ products, ∃ path,
        planOneProduct fuel reg order product = .ok path ∧
        ∃ rec ∈ path, x = (order.getD rec.1 "", rec.2.2) := by
  intro products
  induction products with
  | nil =>
    intro elems out h x hx
    cases h
    exact Or.inl hx
  | cons a t ih =>
    intro elems out h x hx
    rw [runProducts] at h
    split at h
    · cases h
    · rename_i path hplan
      split at h
      · cases h
      · rcases ih _ out h x hx with h1 | ⟨product, hprod, path2, hp2, hrec⟩
        · rcases pathElems_cases h1 with h2 | ⟨rec, hrec, hx2⟩
          · exact Or.inl h2
          · exact Or.inr ⟨a, List.mem_cons_self a t, path, hplan, rec, hrec, hx2⟩
        · exact Or.inr ⟨product, List.mem_cons_of_mem a hprod, path2, hp2, hrec⟩

/-- The run of a requested product succeeds and all elements of its plan path
make it into the aggregated set. -/
theorem runProducts_mem_product {fuel : Nat} {reg : IndexRegistry}
    {order : List String} {T : String} :
    ∀ (products : List String) (elems out : List (String × Nat)),
      T ∈ products →
      runProducts fuel reg order products elems = .ok out →
      ∃ path, planOneProduct fuel reg order T = .ok path ∧
        ∀ rec ∈ path, (order.getD rec.1 "", rec.2.2) ∈ out := by
  intro products
  induction products with
  | nil =>
    intro elems out hT _
    cases hT
  | cons a t ih =>
    intro elems out hT h
    rw [runProducts] at h
    split at h
    · cases h
    · rename_i path hplan
      split at h
      · cases h
      · rcases List.mem_cons.mp hT with he | he
        · refine ⟨path, by rw [he]; exact hplan, ?_⟩
          intro rec hrec
          exact runProducts_mono t _ out h _ (pathElems_mem hrec)
        · exact ih _ out he h

/-- C2 (amended): for a duplicate-free registry without the empty identifier,
every requested target `T` that is registered, not already finished, and whose
recipe at index 0 has every input registered and already finished, appears in
the plan returned by `make_plan` as the pair `(T, 0)` and never as `(T, i)`
for any `i > 0`: the front recipe (registration order index 0) is the one
planned. -/
theorem C2_recipe_zero_preferred (fuel : Nat) (reg : IndexRegistry)
    (end_products : List String) (T : String) (plan : List (String × Nat))
    (hnd : reg.ids.Nodup)
    (hblank : "" ∉ reg.ids)
    (hT : T ∈ end_products)
    (hTreg : T ∈ reg.ids)
    (hTunf : (reg.getArt T).is_finished = false)
    (hTrec : (reg.getArt T).recipes.isEmpty = false)
    (hT0 : ∀ inp ∈ ((reg.getArt T).recipes.getD 0 ⟨[], fun _ _ _ => []⟩).inputs,
      inp ∈ reg.ids ∧ (reg.getArt inp).is_finished = true)
    (hplan : make_plan fuel reg end_products = .ok plan) :
    (T, 0) ∈ plan ∧ ∀ i, (T, i) ∈ plan → i = 0 := by
  rw [make_plan] at hplan
  split at hplan
  · cases hplan
  · rename_i plan0 hsorted
    rw [make_plan_sorted] at hsorted
    split at hsorted
    · cases hsorted
    · rename_i order horder
      split at hsorted
      · cases hsorted
      · rename_i elems helems
        cases hsorted
        cases hplan
        have hperm := dependency_order_perm horder
        have hordernd : order.Nodup := hperm.nodup_iff.mpr hnd
        have hTord : T ∈ order := hperm.mem_iff.mpr hTreg
        have hne : order ≠ [] := by
          intro h
          rw [h] at hTord
          cases hTord
        obtain ⟨hposTlt, hposTget⟩ := depOrderOf_roundtrip hTord
        have hart : artAt reg order (depOrderOf order T) = reg.getArt T := by
          unfold artAt
          rw [hposTget]
        have hTrecipes2 : (artAt reg order (depOrderOf order T)).recipes ≠ [] := by
          rw [hart]
          intro h
          rw [h] at hTrec
          cases hTrec
        have hTinputs2 : ∀ inp ∈ ((artAt reg order (depOrderOf order T)).recipes.getD 0
            ⟨[], fun _ _ _ => []⟩).inputs,
            (artAt reg order (depOrderOf order inp)).is_finished = true := by
          intro inp hinp
          rw [hart] at hinp
          obtain ⟨hids, hfin⟩ := hT0 inp hinp
          have hinord : inp ∈ order := hperm.mem_iff.mpr hids
          obtain ⟨-, hget⟩ := depOrderOf_roundtrip hinord
          unfold artAt
          rw [hget]
          exact hfin
        have hseed : ∀ U : String, C2Inv reg order (depOrderOf order T)
            [(depOrderOf order U, order.length, 1)] [] := by
          intro U
          refine ⟨?_, ?_, ?_, ?_, ?_, ?_, ?_⟩
          · intro e he
            rw [List.mem_singleton] at he
            rw [he]
            show (artAt reg order order.length).is_finished = false
            unfold artAt
            rw [List.getD_eq_default _ _ (le_refl _)]
            exact getArt_empty_not_finished hblank
          · intro e he hpT
            rw [List.mem_singleton] at he
            rw [he] at hpT
            exfalso
            have : order.length = depOrderOf order T := hpT
            omega
          · intro e he
            rw [List.mem_singleton] at he
            rw [he]
            exact depOrderOf_lt hne U
          · intro rec hr
            cases hr
          · intro rec hr
            cases hr
          · intro rec hr
            cases hr
          · intro rec hr
            cases hr
        have hrun : ∀ (U : String) (pathU : List PEntry),
            planOneProduct fuel reg order U = .ok pathU →
            ∀ rec ∈ pathU, (rec.1 = depOrderOf order T → rec.2.2 = 0) ∧
              rec.1 < order.length := by
          intro U pathU hp
          unfold planOneProduct at hp
          exact planLoop_inv reg order (depOrderOf order T) hne hTrecipes2 hTinputs2
            fuel _ _ _ (hseed U) hp
        constructor
        · rcases runProducts_mem_product end_products [] elems hT helems
            with ⟨pathT, hpT, hall⟩
          unfold planOneProduct at hpT
          match fuel, hpT with
          | 0, hpT => cases hpT
          | f + 1, hpT =>
            simp only [planLoop] at hpT
            split at hpT
            · rename_i hfin
              rw [hart, hTunf] at hfin
              cases hfin
            · split at hpT
              · have hq : ∀ e ∈ enqueueInputs order (depOrderOf order T)
                    ((artAt reg order (depOrderOf order T)).recipes.getD 0
                      ⟨[], fun _ _ _ => []⟩).inputs [],
                    (artAt reg order e.1).is_finished = true := by
                  intro e he
                  rcases mem_enqueueInputs _ _ he with ⟨e0, he0, -, -⟩ | ⟨inp, hinp, hp, -⟩
                  · cases he0
                  · rw [hp]
                    exact hTinputs2 inp hinp
                rcases planLoop_drain reg order f _ _ _ hq hpT with ⟨pre, hpre⟩
                have hmem : ((depOrderOf order T, order.length, 0) : PEntry) ∈ pathT := by
                  rw [hpre]
                  exact List.mem_append_right _ (List.mem_cons_self _ _)
                have helem := hall _ hmem
                rw [hposTget] at helem
                refine List.mem_filter.mpr ⟨(mem_sortByDep elems).mpr helem, ?_⟩
                rw [hTunf]
                rfl
              · rename_i hrecem
                exfalso
                refine hTrecipes2 ?_
                have hb : (artAt reg order (depOrderOf order T)).recipes.isEmpty = true := by
                  cases hb2 : (artAt reg order (depOrderOf order T)).recipes.isEmpty with
                  | false => exact absurd hb2 hrecem
                  | true => rfl
                exact List.isEmpty_iff.mp hb
        · intro i hi
          have hi2 : (T, i) ∈ sortByDep order elems := List.mem_of_mem_filter hi
          have hi3 : (T, i) ∈ elems := (mem_sortByDep elems).mp hi2
          rcases runProducts_cases end_products [] elems helems (T, i) hi3
            with h0 | ⟨U, hU, pathU, hpU, rec, hrecU, hxe⟩
          · cases h0
          · obtain ⟨hT0idx, hlt⟩ := hrun U pathU hpU rec hrecU
            rw [Prod.mk.injEq] at hxe
            have hrecpos : rec.1 = depOrderOf order T := by
              refine (@List.Nodup.getElem_inj_iff _ order hordernd rec.1 hlt
                (depOrderOf order T) hposTlt).mp ?_
              rw [← List.getD_eq_getElem order "" hlt,
                ← List.getD_eq_getElem order "" hposTlt, ← hxe.1, hposTget]
            rw [hxe.2]
            exact hT0idx hrecpos

/-- Witness: in the chain registry with `A` provided, planning the products
`[C, B]` yields the plan `[(B, 0), (C, 0)]`, so the target `B`, whose front
recipe input `A` is finished, is planned as `(B, 0)` and only as `(B, 0)`. -/
theorem C2_witness :
    ("B", 0) ∈ [(("B" : String), (0 : Nat)), ("C", 0)] ∧
    ∀ i, ("B", i) ∈ [(("B" : String), (0 : Nat)), ("C", 0)] → i = 0 :=
  C2_recipe_zero_preferred 10 regChain ["C", "B"] "B" [("B", 0), ("C", 0)]
    (by decide) (by decide) (by decide) (by decide) (by decide) (by decide)
    (by decide) rfl

end IndexReg
